import Mathlib

/-!
Verification of the fact-extraction pipeline in
`src/preprocessor/json_context_extractor.py` (class `JSONContextExtractor`).

The Python code is shallowly embedded: dicts keyed by layer names become
insertion-ordered association lists, fact nodes become structures whose
fields mirror the dict keys the code reads (a key read with `.get(k, d)`
is modelled by an `Option` field, or by a plain field when every read
defaults it the same way), floats become rationals, and the external
LLM / database capabilities become explicit function parameters (oracles).
-/

namespace FaffUserManagement

/-! ## Python string normalisation

`value.lower().strip()` — ASCII lowering plus whitespace stripping,
exactly the normalisation the extractor applies before comparing values. -/

/-- Python `str.lower()` on the character list (ASCII range, which is all
the source ever compares). -/
def pyLower (l : List Char) : List Char := l.map Char.toLower

/-- Python `str.strip()`: drop whitespace from both ends. -/
def pyStrip (l : List Char) : List Char :=
  ((l.dropWhile Char.isWhitespace).reverse.dropWhile Char.isWhitespace).reverse

/-- Python `s.lower().strip()` as used throughout `_validate_extractions`,
`_deduplicate_facts` and `_deduplicate_contact_info`. -/
def normVal (s : String) : String := String.mk (pyStrip (pyLower s.data))

/-! ## `fuzz.ratio`

The source imports `fuzzywuzzy.fuzz` backed by `python-Levenshtein`
(see the comment on the import line).  There `fuzz.ratio(a, b)` is
`int(round(100 * (lensum - ldist) / lensum))` where `lensum` is
`len(a) + len(b)` and `ldist` is the Levenshtein distance in which a
substitution costs 2 (insertions and deletions cost 1).  `round` is
Python's round-half-to-even. -/

/-- One row-update of the weighted-Levenshtein dynamic program.
Processing target character `y` against the list `cs` of remaining source
characters; `prev` is the previous row from position `j` on and `left` is
the entry just computed for the current row. -/
def levRowAux (y : Char) : List Char → List ℕ → ℕ → List ℕ
  | [], _, _ => []
  | _ :: _, [], _ => []
  | c :: cs, pj :: rest, left =>
      let pj1 := rest.headD 0
      let v := min (min (left + 1) (pj1 + 1)) (pj + if c = y then 0 else 2)
      v :: levRowAux y cs rest v

/-- Next full row of the dynamic program (first entry is the border `i+1`). -/
def levRow (y : Char) (a : List Char) (prev : List ℕ) : List ℕ :=
  let first := prev.headD 0 + 1
  first :: levRowAux y a prev first

/-- Levenshtein distance with substitution cost 2 (the `python-Levenshtein`
distance underlying `Levenshtein.ratio`). -/
def lev2 (a b : List Char) : ℕ :=
  (b.foldl (fun row y => levRow y a row) (List.range (a.length + 1))).getLastD 0

/-- Round-half-to-even of `num / den` (Python `round`), `den > 0`. -/
def roundHalfEven (num den : ℕ) : ℕ :=
  let q := num / den
  let r := num % den
  if 2 * r < den then q
  else if den < 2 * r then q + 1
  else if q % 2 = 0 then q else q + 1

/-- The `fuzz.ratio(s, t)` score on the 0–100 scale. -/
def fuzzRatio (s t : String) : ℕ :=
  let a := s.data
  let b := t.data
  let lensum := a.length + b.length
  if lensum = 0 then 100
  else roundHalfEven (100 * (lensum - lev2 a b)) lensum

/-! ## Rational literals

Confidences are modelled as rationals.  A literal built with `/` does not
reduce definitionally (the normalisation in `Rat.div` blocks `decide`),
so literals are given directly in lowest terms. -/

/-- The rational `n / d` presented in lowest terms, kernel-reducible. -/
def ratLit (n : ℤ) (d : ℕ) (h1 : d ≠ 0) (h2 : n.natAbs.Coprime d) : ℚ :=
  Rat.mk' n d h1 h2

theorem ratLit_eq (n : ℤ) (d : ℕ) (h1 : d ≠ 0) (h2 : n.natAbs.Coprime d) :
    ratLit n d h1 h2 = (n : ℚ) / d := by
  rw [ratLit, Rat.mk'_eq_divInt, Rat.divInt_eq_div]; norm_num

/-- The `0.75` ownership/confidence threshold of `_validate_extractions`
and `store_in_db`. -/
def CONFIDENCE_THRESHOLD : ℚ := ratLit 3 4 (by decide) (by decide)

theorem CONFIDENCE_THRESHOLD_eq : CONFIDENCE_THRESHOLD = 3 / 4 := by
  rw [CONFIDENCE_THRESHOLD, ratLit_eq]; norm_num

/-- The `0.8` default confidence of `deduplicate_with_llm`. -/
def DEFAULT_CONFIDENCE : ℚ := ratLit 4 5 (by decide) (by decide)

/-! ## Data model -/

/-- The `detail` sub-dict of a fact node: `{"type": ..., "value": ...}`. -/
structure Detail where
  type : String
  value : String
  deriving DecidableEq, Repr

/-- An evidence entry.  The source juggles three possible keys
(`message_id`, `message_snippet`, `snippet`), each read through `.get`,
so all three are `Option`s. -/
structure Evd where
  message_id : Option String
  message_snippet : Option String
  snippet : Option String
  deriving DecidableEq, Repr

/-- A fact node as it flows through the pipeline:
`{"detail": {...}, "confidence": float, "evidence": [...]}`.
(`timestamp` and `ownership_reason` are carried along by the source but
only ever printed, so they are omitted.) -/
structure Fact where
  detail : Detail
  confidence : ℚ
  evidence : List Evd
  deriving DecidableEq, Repr

/-- A per-layer dict `{"Layer1": [...], ...}` in insertion order. -/
abbrev LayerDict := List (String × List Fact)

/-- A flattened message as built by `process_json`. -/
structure Msg where
  id : String
  sender : String
  message : String
  deriving DecidableEq, Repr

/-- A raw message entry of the input document (`message_id` optional). -/
structure RawMsg where
  message_id : Option String
  message : String
  deriving DecidableEq, Repr

/-- One conversation object of the input document. -/
structure Conv where
  user_queries : List RawMsg
  team_replies : List RawMsg
  deriving DecidableEq, Repr

/-! ## Chunker (`chunk_messages`)

```python
if not messages: return []
chunks = []
for i in range(0, len(messages), self.chunk_size - self.overlap_size):
    chunk = messages[i:i + self.chunk_size]
    if chunk: chunks.append(chunk)
    if i + self.chunk_size >= len(messages): break
return chunks
```
A zero `range` step raises `ValueError`; a negative step makes
`range(0, n, step)` empty, so the loop body never runs. -/

/-- The loop body of `chunk_messages` for a positive step, starting at
index `i`: slice, append if non-empty, stop once `i + size` reaches the
end of the list. -/
def chunkGo (msgs : List α) (size step : ℕ) (hstep : 0 < step) (i : ℕ) :
    List (List α) :=
  let chunk := (msgs.drop i).take size
  let acc := if chunk.isEmpty then [] else [chunk]
  if msgs.length ≤ i + size then acc
  else acc ++ chunkGo msgs size step hstep (i + step)
termination_by msgs.length - i
decreasing_by
  simp only [not_le] at *
  omega

/-- Model of `chunk_messages(messages)` with the configured `chunk_size` and
`overlap_size`.  The `ValueError` of a zero `range` step is an `error`
result; a negative step yields the empty chunk list. -/
def chunk_messages (msgs : List α) (chunk_size overlap_size : ℕ) :
    Except String (List (List α)) :=
  if msgs.isEmpty then .ok []
  else if h : chunk_size ≤ overlap_size then
    if chunk_size = overlap_size then .error "range() arg 3 must not be zero"
    else .ok []
  else .ok (chunkGo msgs chunk_size (chunk_size - overlap_size) (by omega) 0)

/-! ## Extraction Validator (`_validate_extractions`)

The `validated_data` dict is an insertion-ordered association list with
Python-dict update semantics. -/

/-- The bare relation words of `invalid_relationship_values`. -/
def invalid_relationship_values : List String :=
  ["wife", "husband", "nephew", "niece", "son", "daughter", "brother", "sister",
   "mother", "father", "aunt", "uncle", "cousin", "friend", "colleague"]

/-- The contentless snippets of `invalid_evidence_patterns`. -/
def invalid_evidence_patterns : List String :=
  ["thanks guys", "thank you", "thanks", "ok", "okay", "yes", "no",
   "sure", "great", "perfect", "sounds good", "alright"]

/-- The relation fact types checked against the bare-word list. -/
def relationTypes : List String := ["relationship", "family_member", "spouse"]

/-- The travel fact types re-layered out of `Layer1`. -/
def travelTypes : List String := ["travel_plan", "flight_number", "travel_date"]

/-- Python `d[k].append(v)` preceded by `if k not in d: d[k] = []`. -/
def dictAppend (d : LayerDict) (k : String) (v : Fact) : LayerDict :=
  if d.any (fun p => p.1 == k) then
    d.map (fun p => if p.1 = k then (p.1, p.2 ++ [v]) else p)
  else d ++ [(k, [v])]

/-- Python `d[k] = v`: overwrite in place if the key exists, else append. -/
def dictSet (d : LayerDict) (k : String) (v : List Fact) : LayerDict :=
  if d.any (fun p => p.1 == k) then
    d.map (fun p => if p.1 = k then (p.1, v) else p)
  else d ++ [(k, v)]

/-- The per-node body of the validation loop.  State is the pair
`(validated_nodes, validated_data)`.  A `Layer1` travel node is appended
to `Layer4` immediately (the `continue`), bypassing the confidence check;
otherwise the node is kept iff no skip condition fires. -/
def validateNode (layer : String) (st : List Fact × LayerDict) (node : Fact) :
    List Fact × LayerDict :=
  let fact_type := node.detail.type
  let fact_value := normVal node.detail.value
  let skipRel := fact_type ∈ relationTypes ∧ fact_value ∈ invalid_relationship_values
  let skipEv := ∃ ev ∈ node.evidence,
    normVal (ev.message_snippet.getD "") ∈ invalid_evidence_patterns
  if layer = "Layer1" ∧ fact_type ∈ travelTypes then
    (st.1, dictAppend st.2 "Layer4" node)
  else if skipRel ∨ skipEv ∨ node.confidence < CONFIDENCE_THRESHOLD then st
  else (st.1 ++ [node], st.2)

/-- One iteration of the outer loop of `_validate_extractions`: validate a
layer's nodes, then store the survivors under the layer key iff any. -/
def validateLayer (vd : LayerDict) (entry : String × List Fact) : LayerDict :=
  let st := entry.2.foldl (validateNode entry.1) ([], vd)
  if st.1.isEmpty then st.2 else dictSet st.2 entry.1 st.1

/-- Model of `_validate_extractions(raw_data)`. -/
def validate_extractions (raw_data : LayerDict) : LayerDict :=
  raw_data.foldl validateLayer []

/-! ## Deterministic deduplication (`_deduplicate_facts` and the Tier B
fallback `_deduplicate_facts_enhanced`) -/

/-- The duplicate test of `_deduplicate_facts`: same `type` and
`fuzz.ratio` of the normalised values above 85. -/
def factDup (fact existing : Fact) : Bool :=
  fact.detail.type == existing.detail.type &&
    85 < fuzzRatio (normVal fact.detail.value) (normVal existing.detail.value)

/-- The body of the `for fact in facts` loop of `_deduplicate_facts`:
scan `deduped` for the first duplicate (the inner loop `break`s); on a
strictly-higher-confidence duplicate, `remove` the existing entry and
`append` the new fact. -/
def dedupStep (deduped : List Fact) (fact : Fact) : List Fact :=
  match deduped.find? (factDup fact) with
  | none => deduped ++ [fact]
  | some existing =>
      if existing.confidence < fact.confidence then deduped.erase existing ++ [fact]
      else deduped

/-- Model of `_deduplicate_facts(facts)`. -/
def deduplicate_facts (facts : List Fact) : List Fact :=
  facts.foldl dedupStep []

/-- Stable descending insertion by confidence: the Lean counterpart of
Python's stable `sorted(..., key=lambda x: x['confidence'], reverse=True)`
used by `_deduplicate_phone_numbers`.  An element is placed before the
first strictly-lower entry, after all equal ones inserted later. -/
def insertByConfDesc (f : Fact) : List Fact → List Fact
  | [] => [f]
  | g :: t => if g.confidence ≤ f.confidence then f :: g :: t
              else g :: insertByConfDesc f t

/-- Python `sorted(phone_facts, key=confidence, reverse=True)` (stable). -/
def sortByConfDesc (facts : List Fact) : List Fact :=
  facts.foldr insertByConfDesc []

/-- Model of `_deduplicate_phone_numbers(phone_facts)`: keep only the first
element of the stable descending sort. -/
def deduplicate_phone_numbers (phone_facts : List Fact) : List Fact :=
  match sortByConfDesc phone_facts with
  | [] => []
  | best :: _ => [best]

/-- The duplicate test of `_deduplicate_contact_info` for addresses:
equal normalised values or `fuzz.ratio` above 85. -/
def addressDup (fact existing : Fact) : Bool :=
  normVal fact.detail.value == normVal existing.detail.value ||
    85 < fuzzRatio (normVal fact.detail.value) (normVal existing.detail.value)

/-- The body of the `for fact in contact_facts` loop of
`_deduplicate_contact_info`.  Emails are duplicates on exact normalised
match (never replaced); addresses follow the fuzzy rule with
higher-confidence replacement; any other type is appended untouched
(the inner loop tests nothing for it). -/
def contactStep (fact_type : String) (deduped : List Fact) (fact : Fact) :
    List Fact :=
  if fact_type = "email" then
    if deduped.any (fun e => normVal fact.detail.value == normVal e.detail.value)
    then deduped else deduped ++ [fact]
  else if fact_type = "address" then
    match deduped.find? (addressDup fact) with
    | none => deduped ++ [fact]
    | some existing =>
        if existing.confidence < fact.confidence then deduped.erase existing ++ [fact]
        else deduped
  else deduped ++ [fact]

/-- Model of `_deduplicate_contact_info(contact_facts, fact_type)`. -/
def deduplicate_contact_info (contact_facts : List Fact) (fact_type : String) :
    List Fact :=
  contact_facts.foldl (contactStep fact_type) []

/-- The `facts_by_type` grouping dict of `_deduplicate_facts_enhanced`:
keys in first-occurrence order, each group in input order. -/
def addToGroup (acc : List (String × List Fact)) (f : Fact) :
    List (String × List Fact) :=
  if acc.any (fun p => p.1 == f.detail.type) then
    acc.map (fun p => if p.1 = f.detail.type then (p.1, p.2 ++ [f]) else p)
  else acc ++ [(f.detail.type, [f])]

/-- The `facts_by_type` dict built by the first loop of `_deduplicate_facts_enhanced`. -/
def groupByType (facts : List Fact) : List (String × List Fact) :=
  facts.foldl addToGroup []

/-- The per-type dispatch of `_deduplicate_facts_enhanced`. -/
def dedupForType (fact_type : String) (type_facts : List Fact) : List Fact :=
  if fact_type = "phone_number" then deduplicate_phone_numbers type_facts
  else if fact_type = "address" ∨ fact_type = "email" then
    deduplicate_contact_info type_facts fact_type
  else deduplicate_facts type_facts

/-- Model of `_deduplicate_facts_enhanced(facts, layer)` (the `layer` argument is
only printed by the source). -/
def deduplicate_facts_enhanced (facts : List Fact) : List Fact :=
  if facts.isEmpty then []
  else (groupByType facts).foldl (fun deduped p => deduped ++ dedupForType p.1 p.2) []

/-- Model of `_apply_fallback_deduplication(extracted_data, user_id)`: Tier B,
applied per layer (empty layers pass through as empty). -/
def apply_fallback_deduplication (extracted_data : LayerDict) : LayerDict :=
  extracted_data.map
    (fun p => if p.2.isEmpty then (p.1, []) else (p.1, deduplicate_facts_enhanced p.2))

/-! ## Merger (`merge_extracted_data`) -/

/-- The four fixed layer keys iterated by `merge_extracted_data`. -/
def layerKeys : List String := ["Layer1", "Layer2", "Layer3", "Layer4"]

/-- Dict lookup `extracted[layer]`, with the guard `if layer in extracted`
folded in as an empty default (extending by `[]` is a no-op). -/
def getLayer (d : LayerDict) (layer : String) : List Fact :=
  ((d.find? (fun p => p.1 == layer)).map (fun p => p.2)).getD []

/-- Model of `merge_extracted_data(all_extracted)`: per fixed layer key, the
concatenation over chunks in processing order, then `_deduplicate_facts`
on each layer. -/
def merge_extracted_data (all_extracted : List LayerDict) : LayerDict :=
  let merged := layerKeys.map
    (fun layer => (layer, all_extracted.foldl (fun acc d => acc ++ getLayer d layer) []))
  merged.map (fun p => (p.1, deduplicate_facts p.2))

/-! ## Tier A deduplication (`deduplicate_with_llm`)

The LLM call (`call_llm_for_deduplication`, including its defensive JSON
parsing) is an oracle returning the parsed response dict; an unusable
call (API error, unparsable response) is the empty dict, exactly the
function's own failure value. -/

/-- A fact of the parsed LLM dedup response:
`{"type": ..., "value": ..., "confidence": ..., "evidence": [...]}`,
every key read defensively. -/
structure LFact where
  type : Option String
  value : Option String
  confidence : Option ℚ
  evidence : Option (List Evd)
  deriving DecidableEq, Repr

/-- The parsed response of the dedup LLM call. -/
abbrev LLMDict := List (String × List LFact)

/-- Evidence reconstruction of `deduplicate_with_llm`:
`{'message_id': ev.get('message_id','unknown'), 'snippet': ev.get('snippet', ev.get('message_snippet',''))}`. -/
def rebuildEvidence (ev : Evd) : Evd :=
  { message_id := some (ev.message_id.getD "unknown")
    message_snippet := none
    snippet := some (ev.snippet.getD (ev.message_snippet.getD "")) }

/-- The placeholder evidence created when a response fact has no
evidence list. -/
def placeholderEvidence : Evd :=
  { message_id := some "unknown"
    message_snippet := none
    snippet := some "Evidence missing during deduplication" }

/-- The conversion of an accepted LLM response back to the node format:
skip facts missing `type` or `value`; rebuild each evidence entry, or
substitute the single placeholder when the `evidence` key is missing or
not a list; default a missing confidence to `0.8`. -/
def convertBack (resp : LLMDict) : LayerDict :=
  resp.map (fun p => (p.1, p.2.filterMap (fun f =>
    match f.type, f.value with
    | some t, some v =>
        let ev := match f.evidence with
          | some l => l.map rebuildEvidence
          | none => [placeholderEvidence]
        some { detail := { type := t, value := v }
               confidence := f.confidence.getD DEFAULT_CONFIDENCE
               evidence := ev }
    | _, _ => none)))

/-- Total node count of a layer dict (`sum(len(nodes) for nodes in ...)`). -/
def totalNodes (d : LayerDict) : ℕ := d.foldl (fun a p => a + p.2.length) 0

/-- Total fact count of an LLM response dict. -/
def totalLNodes (d : LLMDict) : ℕ := d.foldl (fun a p => a + p.2.length) 0

/-- Model of `deduplicate_with_llm(extracted_data, user_id)` with the dedup LLM
call abstracted as `dedupO` (empty response = unusable call).  The
fallback triggers are: empty response, a layer key of the input missing
from the response, or a non-empty input collapsing to zero facts. -/
def deduplicate_with_llm (dedupO : LayerDict → LLMDict)
    (extracted_data : LayerDict) : LayerDict :=
  if extracted_data.isEmpty then []
  else
    let resp := dedupO extracted_data
    if resp.isEmpty then apply_fallback_deduplication extracted_data
    else if ¬ (extracted_data.all (fun p => resp.any (fun q => q.1 == p.1))) then
      apply_fallback_deduplication extracted_data
    else if totalLNodes resp = 0 ∧ 0 < totalNodes extracted_data then
      apply_fallback_deduplication extracted_data
    else convertBack resp

/-! ## Persistence Adapter (`store_in_db`)

`supabase_manager.store_memory_node` is an oracle `storeO` telling
whether the insert returned an id; a database exception anywhere in the
`try` block is the flag `db_error`, sending the function to its
`except` branch.  Both the disabled-DB branch and the `except` branch
return every node of every non-empty input layer as
`newly_stored_nodes` with a zeroed stats record. -/

/-- The per-run counters of `store_in_db`. -/
structure StoreStats where
  stored : ℕ
  duplicate : ℕ
  low_confidence_rejected : ℕ
  deriving DecidableEq, Repr

/-- The return value of `store_in_db`. -/
structure StoreResult where
  newly_stored_nodes : LayerDict
  stats : StoreStats
  deriving DecidableEq, Repr

/-- Python `{layer: nodes for layer, nodes in d.items() if nodes}`. -/
def filterNonempty (d : LayerDict) : LayerDict :=
  d.filter (fun p => ¬ p.2.isEmpty)

/-- The per-node body of the storage loop: reject below the 0.75
confidence threshold, else attempt the insert and count/record the
outcome. -/
def storeNode (storeO : Fact → Bool) (st : List Fact × StoreStats) (node : Fact) :
    List Fact × StoreStats :=
  if node.confidence < CONFIDENCE_THRESHOLD then
    (st.1, { st.2 with low_confidence_rejected := st.2.low_confidence_rejected + 1 })
  else if storeO node then
    (st.1 ++ [node], { st.2 with stored := st.2.stored + 1 })
  else
    (st.1, { st.2 with duplicate := st.2.duplicate + 1 })

/-- Model of `store_in_db(extracted_nodes, user_id)`. -/
def store_in_db (db_enabled db_error : Bool) (storeO : Fact → Bool)
    (extracted_nodes : LayerDict) : StoreResult :=
  if ¬ db_enabled then
    { newly_stored_nodes := filterNonempty extracted_nodes, stats := ⟨0, 0, 0⟩ }
  else if db_error then
    { newly_stored_nodes := filterNonempty extracted_nodes, stats := ⟨0, 0, 0⟩ }
  else
    let res := extracted_nodes.foldl
      (fun acc p =>
        let st := p.2.foldl (storeNode storeO) ([], acc.2)
        (acc.1 ++ [(p.1, st.1)], st.2))
      ([], ⟨0, 0, 0⟩)
    { newly_stored_nodes := filterNonempty res.1, stats := res.2 }

/-! ## Pipeline (`process_json`) -/

/-- Message flattening of `process_json`: per conversation (in order),
all `user_queries` then all `team_replies`, with the synthetic id
`unknown_<sender>_<conversation_index>` for a missing `message_id`. -/
def flattenInput (input_json : List Conv) : List Msg :=
  (input_json.enum.map (fun p =>
    p.2.user_queries.map (fun q =>
      { id := q.message_id.getD ("unknown_user_" ++ toString p.1)
        sender := "User", message := q.message }) ++
    p.2.team_replies.map (fun r =>
      { id := r.message_id.getD ("unknown_team_" ++ toString p.1)
        sender := "Team", message := r.message }))).flatten

/-- Model of `call_llm_for_extraction(prompt)`: the extraction call is an oracle
from the chunk the prompt was built from; `none` (API error or a
non-JSON response) yields the empty dict, otherwise the raw dict is
validated. -/
def call_llm_for_extraction (extractO : List Msg → Option LayerDict)
    (chunk : List Msg) : LayerDict :=
  match extractO chunk with
  | none => []
  | some raw_data => validate_extractions raw_data

/-- The external world of one processing run. -/
structure Env where
  db_enabled : Bool
  db_error : Bool
  extractO : List Msg → Option LayerDict
  dedupO : LayerDict → LLMDict
  storeO : Fact → Bool

/-- The value `process_json` returns: the already-processed marker dict
`{"message": "Already processed", "skipped": True}`, or a dict of facts
(the newly stored nodes, or `{}` when nothing was extracted). -/
inductive PyResult where
  | alreadyProcessed : PyResult
  | facts : LayerDict → PyResult
  deriving DecidableEq, Repr

/-- The fact content of a `process_json` return value. -/
def PyResult.factsOf : PyResult → LayerDict
  | .alreadyProcessed => []
  | .facts d => d

/-- Observable outcome of a run: the returned value, the state of the
processed marker afterwards, and how many extraction calls were made. -/
structure ProcessOut where
  ret : PyResult
  marker : Bool
  extraction_calls : ℕ
  deriving Repr

/-- Model of `process_json(input_json, user_id, force_reprocess)` with the
already-processed marker for the user modelled as the boolean `marker`
(what `is_file_processed` returns / `mark_file_processed` sets).  A
`ValueError` escaping `chunk_messages` propagates as `error`. -/
def process_json (env : Env) (chunk_size overlap_size : ℕ)
    (input_json : List Conv) (marker : Bool) (force_reprocess : Bool) :
    Except String ProcessOut :=
  if ¬ force_reprocess ∧ env.db_enabled ∧ marker then
    .ok { ret := .alreadyProcessed, marker := marker, extraction_calls := 0 }
  else
    let all_messages := flattenInput input_json
    match chunk_messages all_messages chunk_size overlap_size with
    | .error e => .error e
    | .ok chunks =>
      let all_extracted_data :=
        (chunks.map (call_llm_for_extraction env.extractO)).filter
          (fun d => ¬ d.isEmpty)
      if all_extracted_data.isEmpty then
        .ok { ret := .facts [], marker := marker, extraction_calls := chunks.length }
      else
        let merged_data := merge_extracted_data all_extracted_data
        let deduplicated_data := deduplicate_with_llm env.dedupO merged_data
        let storage_result :=
          store_in_db env.db_enabled env.db_error env.storeO deduplicated_data
        let marker1 := if env.db_enabled then true else marker
        .ok { ret := .facts storage_result.newly_stored_nodes
              marker := marker1, extraction_calls := chunks.length }

/-! ## Chunker lemmas and claims C4, C7 -/

/-- A chunk cut from inside the list is non-empty. -/
theorem chunk_not_isEmpty {α} (msgs : List α) (i size : ℕ) (hi : i < msgs.length)
    (hsz : 0 < size) : ¬ ((msgs.drop i).take size).isEmpty = true := by
  intro h
  rw [List.isEmpty_iff] at h
  have hlt : 0 < ((msgs.drop i).take size).length := by
    rw [List.length_take, List.length_drop]; omega
  rw [h] at hlt
  simp at hlt

/-- Coverage of `chunkGo`: every message from position `i` on appears in
some produced chunk (fuel-indexed induction mirroring the recursion). -/
theorem chunkGo_cover_aux {α} (msgs : List α) (size step : ℕ) (hstep : 0 < step)
    (hs : step ≤ size) :
    ∀ n i, msgs.length - i ≤ n → ∀ m ∈ msgs.drop i,
      ∃ c ∈ chunkGo msgs size step hstep i, m ∈ c := by
  intro n
  induction n with
  | zero =>
      intro i hfuel m hm
      have hnil : msgs.drop i = [] := List.drop_eq_nil_of_le (by omega)
      rw [hnil] at hm
      exact absurd hm (List.not_mem_nil m)
  | succ n ih =>
      intro i hfuel m hm
      have hil : i < msgs.length := by
        by_contra hc
        rw [List.drop_eq_nil_of_le (by omega)] at hm
        exact absurd hm (List.not_mem_nil m)
      rw [chunkGo]
      rw [if_neg (chunk_not_isEmpty msgs i size hil (by omega))]
      by_cases hend : msgs.length ≤ i + size
      · rw [if_pos hend]
        have hlen : (msgs.drop i).length ≤ size := by
          rw [List.length_drop]; omega
        rw [List.take_of_length_le hlen]
        exact ⟨msgs.drop i, by simp, hm⟩
      · rw [if_neg hend]
        have hsplit : msgs.drop i = (msgs.drop i).take step ++ msgs.drop (i + step) := by
          conv_lhs => rw [← List.take_append_drop step (msgs.drop i)]
          rw [List.drop_drop]
        rw [hsplit, List.mem_append] at hm
        rcases hm with hm | hm
        · refine ⟨(msgs.drop i).take size, by simp, ?_⟩
          have hts : (msgs.drop i).take step = ((msgs.drop i).take size).take step := by
            rw [List.take_take, min_eq_left hs]
          rw [hts] at hm
          exact List.take_subset step _ hm
        · obtain ⟨c, hc, hmc⟩ := ih (i + step) (by omega) m hm
          exact ⟨c, by simp [hc], hmc⟩

/-- The first chunk produced from a position inside the list. -/
theorem chunkGo_head {α} (msgs : List α) (size step : ℕ) (hstep : 0 < step)
    (hpos : 0 < size) (i : ℕ) (hi : i < msgs.length) :
    (chunkGo msgs size step hstep i).head? = some ((msgs.drop i).take size) := by
  rw [chunkGo]
  rw [if_neg (chunk_not_isEmpty msgs i size hi hpos)]
  by_cases hend : msgs.length ≤ i + size
  · rw [if_pos hend]; rfl
  · rw [if_neg hend]; rfl

/-- Consecutive chunks agree on `size - step` elements: the tail of each
non-final chunk equals the head of its successor. -/
theorem chunkGo_chain {α} (msgs : List α) (size step : ℕ) (hstep : 0 < step)
    (hs : step ≤ size) :
    ∀ n i, msgs.length - i ≤ n →
      List.Chain' (fun c d => c.drop (c.length - (size - step)) = d.take (size - step))
        (chunkGo msgs size step hstep i) := by
  intro n
  induction n with
  | zero =>
      intro i hfuel
      rw [chunkGo]
      have hnil : msgs.drop i = [] := List.drop_eq_nil_of_le (by omega)
      simp [hnil, show msgs.length ≤ i + size by omega]
  | succ n ih =>
      intro i hfuel
      rw [chunkGo]
      by_cases hil : i < msgs.length
      · rw [if_neg (chunk_not_isEmpty msgs i size hil (by omega))]
        by_cases hend : msgs.length ≤ i + size
        · rw [if_pos hend]
          exact List.chain'_singleton _
        · rw [if_neg hend, List.singleton_append, List.chain'_cons']
          constructor
          · intro d hd
            rw [chunkGo_head msgs size step hstep (by omega) (i + step) (by omega)] at hd
            have hd' : (msgs.drop (i + step)).take size = d := by simpa using hd
            rw [← hd']
            have hclen : ((msgs.drop i).take size).length = size := by
              rw [List.length_take, List.length_drop]; omega
            rw [hclen]
            have h1 : ((msgs.drop i).take size).drop (size - (size - step)) =
                ((msgs.drop i).take size).drop step := by
              congr 1; omega
            rw [h1, List.drop_take, List.drop_drop]
            rw [List.take_take, min_eq_left (by omega : size - step ≤ size)]
          · exact ih (i + step) (by omega)
      · have hnil : msgs.drop i = [] := List.drop_eq_nil_of_le (by omega)
        simp [hnil, show msgs.length ≤ i + size by omega]

/-- Claim C7: for `size > overlap ≥ 0` the Chunker succeeds; its chunks
cover every input message, consecutive chunks agree on exactly `overlap`
elements (tail of one = head of the next), and the empty input gives the
empty output. -/
theorem chunker_covers_and_overlaps {α} (msgs : List α) (size overlap : ℕ)
    (h : overlap < size) :
    ∃ cs, chunk_messages msgs size overlap = .ok cs ∧
      (∀ m ∈ msgs, ∃ c ∈ cs, m ∈ c) ∧
      List.Chain' (fun c d => c.drop (c.length - overlap) = d.take overlap) cs ∧
      (msgs = [] → cs = []) := by
  by_cases hmt : msgs.isEmpty
  · refine ⟨[], ?_, ?_, ?_, ?_⟩
    · simp [chunk_messages, hmt]
    · intro m hm
      rw [List.isEmpty_iff] at hmt
      simp [hmt] at hm
    · exact List.chain'_nil
    · intro _; rfl
  · have hop : ¬ size ≤ overlap := by omega
    refine ⟨chunkGo msgs size (size - overlap) (by omega) 0, ?_, ?_, ?_, ?_⟩
    · simp [chunk_messages, hmt, hop]
    · intro m hm
      exact chunkGo_cover_aux msgs size (size - overlap) (by omega) (by omega)
        msgs.length 0 (by omega) m (by simpa using hm)
    · have := chunkGo_chain msgs size (size - overlap) (by omega) (by omega)
        msgs.length 0 (by omega)
      have hov : size - (size - overlap) = overlap := by omega
      rwa [hov] at this
    · intro hnil
      rw [List.isEmpty_iff] at hmt
      exact absurd hnil hmt

/-- Witness for C7 at a concrete input. -/
theorem chunker_covers_and_overlaps_witness :
    ∃ cs, chunk_messages [0, 1, 2, 3, 4] 3 1 = .ok cs ∧
      (∀ m ∈ [0, 1, 2, 3, 4], ∃ c ∈ cs, m ∈ c) ∧
      List.Chain' (fun c d => c.drop (c.length - 1) = d.take 1) cs ∧
      ([0, 1, 2, 3, 4] = ([] : List ℕ) → cs = []) :=
  chunker_covers_and_overlaps [0, 1, 2, 3, 4] 3 1 (by decide)

/-- Claim C4 counterexample: with `overlap = 5 ≥ 3 = size` and a
non-empty message list the Chunker raises nothing — it silently returns
the empty chunk list instead of a configuration error. -/
theorem chunker_overlap_gt_size_silent :
    chunk_messages [Msg.mk "m1" "User" "hello"] 3 5 = .ok [] := rfl

/-- Claim C4 (amended): for `overlap ≥ size` and a non-empty input the
Chunker raises the zero-step `range` error only when `overlap = size`;
for `overlap > size` it silently returns the empty chunk list.  (It is a
total function, so it never loops.) -/
theorem chunker_overlap_ge_size (msgs : List α) (size overlap : ℕ)
    (h : size ≤ overlap) :
    chunk_messages msgs size overlap =
      if msgs.isEmpty then .ok []
      else if size = overlap then .error "range() arg 3 must not be zero"
      else .ok [] := by
  by_cases hmt : msgs.isEmpty
  · simp [chunk_messages, hmt]
  · simp [chunk_messages, hmt, h]

/-- Witness for the amended C4 at a concrete input (`overlap = size`). -/
theorem chunker_overlap_ge_size_witness :
    chunk_messages [Msg.mk "m1" "User" "hello"] 3 3 =
      .error "range() arg 3 must not be zero" := by
  simpa using chunker_overlap_ge_size [Msg.mk "m1" "User" "hello"] 3 3 (by decide)

/-! ## Validator soundness and claims C2, C9 -/

/-- A node that survived every skip check of `_validate_extractions`:
no bare relation word, no contentless evidence snippet, confidence at
least the 0.75 threshold. -/
def nodePasses (n : Fact) : Prop :=
  ¬ (n.detail.type ∈ relationTypes ∧
     normVal n.detail.value ∈ invalid_relationship_values) ∧
  ¬ (∃ ev ∈ n.evidence,
     normVal (ev.message_snippet.getD "") ∈ invalid_evidence_patterns) ∧
  CONFIDENCE_THRESHOLD ≤ n.confidence

/-- Every node of a `validated_data` entry either was travel-moved into
the `Layer4` bucket or passed all skip checks. -/
def entrySound (p : String × List Fact) : Prop :=
  ∀ n ∈ p.2, (p.1 = "Layer4" ∧ n.detail.type ∈ travelTypes) ∨ nodePasses n

theorem mem_dictAppend {d : LayerDict} {k : String} {v : Fact} {p}
    (hp : p ∈ dictAppend d k v) :
    p ∈ d ∨ (∃ q, q ∈ d ∧ q.1 = k ∧ p = (k, q.2 ++ [v])) ∨ p = (k, [v]) := by
  rw [dictAppend] at hp
  by_cases h : d.any (fun p => p.1 == k) = true
  · rw [if_pos h] at hp
    rw [List.mem_map] at hp
    obtain ⟨q, hq, heq⟩ := hp
    by_cases hk : q.1 = k
    · rw [if_pos hk] at heq
      exact Or.inr (Or.inl ⟨q, hq, hk, by rw [← heq, hk]⟩)
    · rw [if_neg hk] at heq
      exact Or.inl (heq ▸ hq)
  · rw [if_neg h] at hp
    rcases List.mem_append.mp hp with h1 | h1
    · exact Or.inl h1
    · exact Or.inr (Or.inr (List.mem_singleton.mp h1))

theorem mem_dictSet {d : LayerDict} {k : String} {ns : List Fact} {p}
    (hp : p ∈ dictSet d k ns) : p ∈ d ∨ p = (k, ns) := by
  rw [dictSet] at hp
  by_cases h : d.any (fun p => p.1 == k) = true
  · rw [if_pos h] at hp
    rw [List.mem_map] at hp
    obtain ⟨q, hq, heq⟩ := hp
    by_cases hk : q.1 = k
    · rw [if_pos hk] at heq
      exact Or.inr (by rw [← heq, hk])
    · rw [if_neg hk] at heq
      exact Or.inl (heq ▸ hq)
  · rw [if_neg h] at hp
    rcases List.mem_append.mp hp with h1 | h1
    · exact Or.inl h1
    · exact Or.inr (List.mem_singleton.mp h1)

theorem validateNode_sound (layer : String) (st : List Fact × LayerDict)
    (node : Fact) (h1 : ∀ n ∈ st.1, nodePasses n)
    (h2 : ∀ p ∈ st.2, entrySound p) :
    (∀ n ∈ (validateNode layer st node).1, nodePasses n) ∧
    (∀ p ∈ (validateNode layer st node).2, entrySound p) := by
  simp only [validateNode]
  split_ifs with ht hskip
  · refine ⟨h1, ?_⟩
    intro p hp
    rcases mem_dictAppend hp with hmem | ⟨q, hq, hk, rfl⟩ | rfl
    · exact h2 p hmem
    · intro n hn
      rcases List.mem_append.mp hn with hn | hn
      · rcases h2 q hq n hn with ⟨_, htr⟩ | hpass
        · exact Or.inl ⟨rfl, htr⟩
        · exact Or.inr hpass
      · rw [List.mem_singleton.mp hn]
        exact Or.inl ⟨rfl, ht.2⟩
    · intro n hn
      rw [List.mem_singleton.mp hn]
      exact Or.inl ⟨rfl, ht.2⟩
  · exact ⟨h1, h2⟩
  · push_neg at hskip
    refine ⟨?_, h2⟩
    intro n hn
    rcases List.mem_append.mp hn with hn | hn
    · exact h1 n hn
    · rw [List.mem_singleton.mp hn]
      exact ⟨fun ⟨ha, hb⟩ => hskip.1 ha hb,
             fun ⟨ev, hev, hin⟩ => hskip.2.1 ev hev hin, hskip.2.2⟩

theorem validateFold_sound (layer : String) (nodes : List Fact) :
    ∀ st, (∀ n ∈ st.1, nodePasses n) → (∀ p ∈ st.2, entrySound p) →
      (∀ n ∈ (nodes.foldl (validateNode layer) st).1, nodePasses n) ∧
      (∀ p ∈ (nodes.foldl (validateNode layer) st).2, entrySound p) := by
  induction nodes with
  | nil => exact fun st h1 h2 => ⟨h1, h2⟩
  | cons nd t ih =>
      intro st h1 h2
      rw [List.foldl_cons]
      obtain ⟨g1, g2⟩ := validateNode_sound layer st nd h1 h2
      exact ih _ g1 g2

theorem validateLayer_sound (vd : LayerDict) (entry : String × List Fact)
    (h2 : ∀ p ∈ vd, entrySound p) :
    ∀ p ∈ validateLayer vd entry, entrySound p := by
  simp only [validateLayer]
  obtain ⟨g1, g2⟩ := validateFold_sound entry.1 entry.2 ([], vd)
    (by intro n hn; exact absurd hn (List.not_mem_nil n)) h2
  split_ifs with hemp
  · exact g2
  · intro p hp
    rcases mem_dictSet hp with hmem | rfl
    · exact g2 p hmem
    · intro n hn
      exact Or.inr (g1 n hn)

/-- Every entry of the Validator's output is sound: each node either was
travel-moved into the Layer4 bucket or passed all skip checks. -/
theorem validate_extractions_sound (raw_data : LayerDict) :
    ∀ p ∈ validate_extractions raw_data, entrySound p := by
  suffices h : ∀ (raw : LayerDict) (vd : LayerDict),
      (∀ p ∈ vd, entrySound p) → ∀ p ∈ raw.foldl validateLayer vd, entrySound p by
    exact h raw_data [] (by intro p hp; exact absurd hp (List.not_mem_nil p))
  intro raw
  induction raw with
  | nil => exact fun vd h p hp => h p hp
  | cons e t ih =>
      intro vd h
      rw [List.foldl_cons]
      exact ih (validateLayer vd e) (validateLayer_sound vd e h)

/-- A `Layer1` `flight_number` node with confidence `0.5`, used to show
the travel move bypasses the confidence check. -/
def travelLowNode : Fact :=
  { detail := { type := "flight_number", value := "AI202" }
    confidence := ratLit 1 2 (by decide) (by decide)
    evidence := [{ message_id := some "m1"
                   message_snippet := some "my flight is AI202", snippet := none }] }

/-- Claim C2 counterexample: the Validator's output can contain a
candidate with confidence `0.5 < 0.75` — a `Layer1` travel candidate is
moved to `Layer4` *before* the confidence check and `continue`s past it. -/
theorem validator_low_confidence_travel_output :
    validate_extractions [("Layer1", [travelLowNode])] = [("Layer4", [travelLowNode])]
    ∧ travelLowNode.confidence < 3 / 4 := by
  constructor
  · decide
  · rw [show travelLowNode.confidence = ratLit 1 2 (by decide) (by decide) from rfl,
        ratLit_eq]
    norm_num

/-- Claim C2 (amended): every candidate in the Validator's output has
confidence at least 0.75 *unless* it sits in the `Layer4` bucket with a
travel fact type; a `Layer1` travel candidate is moved to `Layer4`
without being subject to the confidence drop, as the concrete run shows. -/
theorem validator_confidence_except_travel_move :
    (∀ raw_data : LayerDict, ∀ p ∈ validate_extractions raw_data, ∀ n ∈ p.2,
       (p.1 = "Layer4" ∧ n.detail.type ∈ travelTypes) ∨ 3 / 4 ≤ n.confidence) ∧
    validate_extractions [("Layer1", [travelLowNode])] = [("Layer4", [travelLowNode])] := by
  constructor
  · intro raw_data p hp n hn
    rcases validate_extractions_sound raw_data p hp n hn with h | h
    · exact Or.inl h
    · exact Or.inr (CONFIDENCE_THRESHOLD_eq ▸ h.2.2)
  · decide

/-- Witness for the universal part of the amended C2, at a concrete run. -/
theorem validator_confidence_except_travel_move_witness :
    ("Layer4" = "Layer4" ∧ travelLowNode.detail.type ∈ travelTypes) ∨
      3 / 4 ≤ travelLowNode.confidence :=
  validator_confidence_except_travel_move.1 [("Layer1", [travelLowNode])]
    ("Layer4", [travelLowNode]) (by decide) travelLowNode (by decide)

/-- A bare relation word candidate (`spouse`/`Wife`, upper-case to
exercise the case-insensitive normalisation). -/
def bareWifeNode : Fact :=
  { detail := { type := "spouse", value := "Wife" }
    confidence := ratLit 9 10 (by decide) (by decide)
    evidence := [{ message_id := some "m3"
                   message_snippet := some "my wife will come", snippet := none }] }

/-- A named spouse candidate with confidence `0.9`. -/
def namedSpouseNode : Fact :=
  { detail := { type := "spouse", value := "Sarah" }
    confidence := ratLit 9 10 (by decide) (by decide)
    evidence := [{ message_id := some "m3"
                   message_snippet := some "my wife sarah is coming", snippet := none }] }

/-- Claim C9: no candidate with a relation fact type and a bare relation
word (case-insensitively) as value ever appears in the Validator's
output, while the named `spouse`/`Sarah` candidate with confidence 0.9
survives (and the bare one is dropped) in the concrete run. -/
theorem validator_drops_bare_relations :
    (∀ raw_data : LayerDict, ∀ p ∈ validate_extractions raw_data, ∀ n ∈ p.2,
       ¬ (n.detail.type ∈ relationTypes ∧
          normVal n.detail.value ∈ invalid_relationship_values)) ∧
    validate_extractions [("Layer3", [bareWifeNode, namedSpouseNode])] =
      [("Layer3", [namedSpouseNode])] := by
  constructor
  · intro raw_data p hp n hn
    rcases validate_extractions_sound raw_data p hp n hn with ⟨_, htr⟩ | hpass
    · intro ⟨hrel, _⟩
      simp only [travelTypes, List.mem_cons, List.not_mem_nil, or_false] at htr
      rcases htr with h | h | h <;> (rw [h] at hrel; exact absurd hrel (by decide))
    · exact hpass.1
  · decide

/-- Witness for the universal part of C9, at a concrete run. -/
theorem validator_drops_bare_relations_witness :
    ¬ (namedSpouseNode.detail.type ∈ relationTypes ∧
       normVal namedSpouseNode.detail.value ∈ invalid_relationship_values) :=
  validator_drops_bare_relations.1 [("Layer3", [bareWifeNode, namedSpouseNode])]
    ("Layer3", [namedSpouseNode]) (by decide) namedSpouseNode (by decide)

/-! ## Grouping lemmas and claim C8 -/

theorem foldl_addToGroup_const (t : String) :
    ∀ (l : List Fact), (∀ f ∈ l, f.detail.type = t) →
      ∀ g : List Fact, l.foldl addToGroup [(t, g)] = [(t, g ++ l)] := by
  intro l
  induction l with
  | nil => intro _ g; rw [List.foldl_nil, List.append_nil]
  | cons f rest ih =>
      intro hall g
      rw [List.foldl_cons]
      have hft : f.detail.type = t := hall f (List.mem_cons_self f rest)
      have hstep : addToGroup [(t, g)] f = [(t, g ++ [f])] := by
        rw [addToGroup, if_pos (by simp [hft])]
        simp [hft]
      rw [hstep, ih (fun x hx => hall x (List.mem_cons_of_mem f hx)) (g ++ [f])]
      rw [List.append_assoc, List.singleton_append]

/-- A non-empty type-pure fact list groups into a single bucket. -/
theorem groupByType_const (t : String) (l : List Fact) (hne : l ≠ [])
    (hall : ∀ f ∈ l, f.detail.type = t) : groupByType l = [(t, l)] := by
  cases l with
  | nil => exact absurd rfl hne
  | cons f rest =>
      have hft : f.detail.type = t := hall f (List.mem_cons_self f rest)
      rw [groupByType, List.foldl_cons]
      have hstep : addToGroup [] f = [(t, [f])] := by
        rw [addToGroup, if_neg (by simp)]
        rw [List.nil_append, hft]
      rw [hstep, foldl_addToGroup_const t rest
        (fun x hx => hall x (List.mem_cons_of_mem f hx)) [f]]
      rw [List.singleton_append]

/-- On a non-empty type-pure list, Tier B dispatches to the single
per-type rule. -/
theorem deduplicate_facts_enhanced_const (t : String) (l : List Fact)
    (hne : l ≠ []) (hall : ∀ f ∈ l, f.detail.type = t) :
    deduplicate_facts_enhanced l = dedupForType t l := by
  rw [deduplicate_facts_enhanced, if_neg (by simpa [List.isEmpty_iff] using hne)]
  rw [groupByType_const t l hne hall]
  rw [List.foldl_cons, List.foldl_nil, List.nil_append]

theorem insertByConfDesc_ne_nil (f : Fact) (s : List Fact) :
    insertByConfDesc f s ≠ [] := by
  cases s with
  | nil => simp [insertByConfDesc]
  | cons g tl =>
      rw [insertByConfDesc]
      split_ifs <;> simp

/-- The head of the stable descending sort is the first-seen maximum:
it bounds every element and strictly dominates every earlier one. -/
theorem sortByConfDesc_head_first_max :
    ∀ l : List Fact, l ≠ [] →
      ∃ (i : ℕ) (hi : i < l.length),
        (sortByConfDesc l).head? = some (l.get ⟨i, hi⟩) ∧
        (∀ (j : ℕ) (hj : j < l.length),
          (l.get ⟨j, hj⟩).confidence ≤ (l.get ⟨i, hi⟩).confidence) ∧
        (∀ (j : ℕ) (hj : j < l.length), j < i →
          (l.get ⟨j, hj⟩).confidence < (l.get ⟨i, hi⟩).confidence) := by
  intro l
  induction l with
  | nil => intro h; exact absurd rfl h
  | cons x t ih =>
      intro _
      by_cases ht : t = []
      · subst ht
        refine ⟨0, by simp, ?_, ?_, ?_⟩
        · rfl
        · intro j hj
          have hj0 : j = 0 := by simpa using hj
          subst hj0
          exact le_refl _
        · intro j hj hj0
          omega
      · obtain ⟨i, hi, hhead, hmax, hstrict⟩ := ih ht
        have hsne : sortByConfDesc t ≠ [] := by
          cases t with
          | nil => exact absurd rfl ht
          | cons y s =>
              show List.foldr insertByConfDesc [] (y :: s) ≠ []
              rw [List.foldr_cons]
              exact insertByConfDesc_ne_nil y _
        obtain ⟨m, s, hms⟩ := List.exists_cons_of_ne_nil hsne
        have hm : m = t.get ⟨i, hi⟩ := by
          rw [hms] at hhead
          exact Option.some_injective _ hhead
        have hsort : sortByConfDesc (x :: t) = insertByConfDesc x (m :: s) := by
          show List.foldr insertByConfDesc [] (x :: t) = _
          rw [List.foldr_cons]
          show insertByConfDesc x (sortByConfDesc t) = _
          rw [hms]
        by_cases hle : m.confidence ≤ x.confidence
        · refine ⟨0, by simp, ?_, ?_, ?_⟩
          · rw [hsort, insertByConfDesc, if_pos hle]
            rfl
          · intro j hj
            cases j with
            | zero => exact le_refl _
            | succ j =>
                have hj' : j < t.length := by simpa using hj
                calc (t.get ⟨j, hj'⟩).confidence
                    ≤ (t.get ⟨i, hi⟩).confidence := hmax j hj'
                  _ ≤ x.confidence := hm ▸ hle
          · intro j hj hj0
            omega
        · have hlt : x.confidence < m.confidence := lt_of_not_le hle
          refine ⟨i + 1, by simpa using Nat.succ_lt_succ hi, ?_, ?_, ?_⟩
          · rw [hsort, insertByConfDesc, if_neg hle]
            show some m = _
            rw [hm]
            rfl
          · intro j hj
            cases j with
            | zero => exact le_of_lt (hm ▸ hlt)
            | succ j =>
                have hj' : j < t.length := by simpa using hj
                exact hmax j hj'
          · intro j hj hji
            cases j with
            | zero => exact hm ▸ hlt
            | succ j =>
                have hj' : j < t.length := by simpa using hj
                exact hstrict j hj' (by omega)

/-- Claim C8: on a non-empty list of `phone_number` candidates, Tier B
deduplication returns exactly one candidate — an element of the input of
maximal confidence that strictly dominates every earlier candidate
(first-seen tie-breaking). -/
theorem tierB_phone_keeps_first_max (l : List Fact) (hne : l ≠ [])
    (hall : ∀ f ∈ l, f.detail.type = "phone_number") :
    ∃ (i : ℕ) (hi : i < l.length),
      deduplicate_facts_enhanced l = [l.get ⟨i, hi⟩] ∧
      (∀ (j : ℕ) (hj : j < l.length),
        (l.get ⟨j, hj⟩).confidence ≤ (l.get ⟨i, hi⟩).confidence) ∧
      (∀ (j : ℕ) (hj : j < l.length), j < i →
        (l.get ⟨j, hj⟩).confidence < (l.get ⟨i, hi⟩).confidence) := by
  obtain ⟨i, hi, hhead, hmax, hstrict⟩ := sortByConfDesc_head_first_max l hne
  refine ⟨i, hi, ?_, hmax, hstrict⟩
  rw [deduplicate_facts_enhanced_const "phone_number" l hne hall]
  rw [dedupForType, if_pos rfl, deduplicate_phone_numbers]
  obtain ⟨m, s, hms⟩ := List.exists_cons_of_ne_nil
    (show sortByConfDesc l ≠ [] by
      cases l with
      | nil => exact absurd rfl hne
      | cons y tl =>
          show List.foldr insertByConfDesc [] (y :: tl) ≠ []
          rw [List.foldr_cons]
          exact insertByConfDesc_ne_nil y _)
  rw [hms]
  rw [hms] at hhead
  have : m = l.get ⟨i, hi⟩ := Option.some_injective _ hhead
  rw [this]

/-- A `phone_number` candidate with confidence `0.7`. -/
def phone07 : Fact :=
  { detail := { type := "phone_number", value := "9876543210" }
    confidence := ratLit 7 10 (by decide) (by decide)
    evidence := [{ message_id := some "p1"
                   message_snippet := some "my number is 9876543210", snippet := none }] }

/-- A `phone_number` candidate with confidence `0.95`. -/
def phone095 : Fact :=
  { detail := { type := "phone_number", value := "+91 9876543210" }
    confidence := ratLit 19 20 (by decide) (by decide)
    evidence := [{ message_id := some "p2"
                   message_snippet := some "call me on +91 9876543210", snippet := none }] }

/-- A `phone_number` candidate with confidence `0.8`. -/
def phone08 : Fact :=
  { detail := { type := "phone_number", value := "98765 43210" }
    confidence := ratLit 4 5 (by decide) (by decide)
    evidence := [{ message_id := some "p3"
                   message_snippet := some "reach me at 98765 43210", snippet := none }] }

/-- Witness for C8 on the spec's own example: confidences
`[0.7, 0.95, 0.8]`. -/
theorem tierB_phone_keeps_first_max_witness :
    ∃ (i : ℕ) (hi : i < ([phone07, phone095, phone08] : List Fact).length),
      deduplicate_facts_enhanced [phone07, phone095, phone08] =
        [([phone07, phone095, phone08] : List Fact).get ⟨i, hi⟩] ∧
      (∀ (j : ℕ) (hj : j < ([phone07, phone095, phone08] : List Fact).length),
        (([phone07, phone095, phone08] : List Fact).get ⟨j, hj⟩).confidence ≤
          (([phone07, phone095, phone08] : List Fact).get ⟨i, hi⟩).confidence) ∧
      (∀ (j : ℕ) (hj : j < ([phone07, phone095, phone08] : List Fact).length), j < i →
        (([phone07, phone095, phone08] : List Fact).get ⟨j, hj⟩).confidence <
          (([phone07, phone095, phone08] : List Fact).get ⟨i, hi⟩).confidence) :=
  tierB_phone_keeps_first_max [phone07, phone095, phone08] (by decide) (by decide)

/-! ## Tier B structural lemmas (towards claim C3) -/

theorem dedupStep_ne_nil (deduped : List Fact) (fact : Fact) :
    dedupStep deduped fact ≠ [] := by
  cases hf : deduped.find? (factDup fact) with
  | none =>
      show dedupStep deduped fact ≠ []
      rw [dedupStep, hf]
      simp
  | some e =>
      rw [dedupStep, hf]
      show (if e.confidence < fact.confidence
            then deduped.erase e ++ [fact] else deduped) ≠ []
      split_ifs
      · simp
      · exact List.ne_nil_of_mem (List.mem_of_find?_eq_some hf)

theorem mem_dedupStep {deduped : List Fact} {fact a : Fact}
    (ha : a ∈ dedupStep deduped fact) : a ∈ deduped ∨ a = fact := by
  rw [dedupStep] at ha
  cases hf : deduped.find? (factDup fact) with
  | none =>
      rw [hf] at ha
      rcases List.mem_append.mp ha with h | h
      · exact Or.inl h
      · exact Or.inr (List.mem_singleton.mp h)
  | some e =>
      rw [hf] at ha
      have ha' : a ∈ (if e.confidence < fact.confidence
          then deduped.erase e ++ [fact] else deduped) := ha
      split_ifs at ha'
      · rcases List.mem_append.mp ha' with h | h
        · exact Or.inl (List.erase_subset e deduped h)
        · exact Or.inr (List.mem_singleton.mp h)
      · exact Or.inl ha'

theorem deduplicate_facts_subset :
    ∀ (l acc : List Fact) (a : Fact), a ∈ l.foldl dedupStep acc → a ∈ acc ∨ a ∈ l := by
  intro l
  induction l with
  | nil => intro acc a ha; exact Or.inl ha
  | cons f t ih =>
      intro acc a ha
      rw [List.foldl_cons] at ha
      rcases ih (dedupStep acc f) a ha with h | h
      · rcases mem_dedupStep h with h' | h'
        · exact Or.inl h'
        · exact Or.inr (h' ▸ List.mem_cons_self f t)
      · exact Or.inr (List.mem_cons_of_mem f h)

theorem deduplicate_facts_ne_nil (l : List Fact) (hne : l ≠ []) :
    deduplicate_facts l ≠ [] := by
  cases l with
  | nil => exact absurd rfl hne
  | cons f t =>
      rw [deduplicate_facts, List.foldl_cons]
      have : ∀ (r : List Fact) (acc : List Fact), acc ≠ [] →
          r.foldl dedupStep acc ≠ [] := by
        intro r
        induction r with
        | nil => exact fun acc h => h
        | cons g s ih =>
            intro acc _
            rw [List.foldl_cons]
            exact ih (dedupStep acc g) (dedupStep_ne_nil acc g)
      exact this t (dedupStep [] f) (dedupStep_ne_nil [] f)

/-- Under equal confidences no replacement fires, so the survivors are
pairwise non-duplicates (each later element fails the duplicate test
against each earlier one). -/
theorem deduplicate_facts_pairwise (c : ℚ) :
    ∀ (l acc : List Fact), (∀ f ∈ l, f.confidence = c) →
      (∀ a ∈ acc, a.confidence = c) →
      acc.Pairwise (fun a b => factDup b a = false) →
      ((l.foldl dedupStep acc).Pairwise (fun a b => factDup b a = false)) ∧
      (∀ a ∈ l.foldl dedupStep acc, a.confidence = c) := by
  intro l
  induction l with
  | nil => exact fun acc _ hacc hpw => ⟨hpw, hacc⟩
  | cons f t ih =>
      intro acc hl hacc hpw
      rw [List.foldl_cons]
      have hfc : f.confidence = c := hl f (List.mem_cons_self f t)
      have hstep : dedupStep acc f = acc ∨ dedupStep acc f = acc ++ [f] := by
        cases hf : acc.find? (factDup f) with
        | none => exact Or.inr (by rw [dedupStep, hf])
        | some e =>
            have hec : e.confidence = c := hacc e (List.mem_of_find?_eq_some hf)
            have hnlt : ¬ e.confidence < f.confidence := by
              rw [hec, hfc]; exact lt_irrefl c
            exact Or.inl (by rw [dedupStep, hf]; exact if_neg hnlt)
      have htl : ∀ g ∈ t, g.confidence = c :=
        fun g hg => hl g (List.mem_cons_of_mem f hg)
      rcases hstep with h | h
      · rw [h]
        exact ih acc htl hacc hpw
      · rw [h]
        by_cases hdup : acc.find? (factDup f) = none
        · have hnew : ∀ a ∈ acc, factDup f a = false := by
            intro a ha
            have := List.find?_eq_none.mp hdup a ha
            simpa using this
          refine ih (acc ++ [f]) htl ?_ ?_
          · intro a ha
            rcases List.mem_append.mp ha with h' | h'
            · exact hacc a h'
            · rw [List.mem_singleton.mp h']; exact hfc
          · rw [List.pairwise_append]
            refine ⟨hpw, List.pairwise_singleton _ _, ?_⟩
            intro a ha b hb
            rw [List.mem_singleton.mp hb]
            exact hnew a ha
        · -- a duplicate was found: with equal confidences the step keeps
          -- `acc`, contradicting `h : dedupStep acc f = acc ++ [f]`.
          exfalso
          obtain ⟨e, he⟩ := Option.ne_none_iff_exists'.mp hdup
          have hec : e.confidence = c := hacc e (List.mem_of_find?_eq_some he)
          have hnlt : ¬ e.confidence < f.confidence := by
            rw [hec, hfc]; exact lt_irrefl c
          have hkeep : dedupStep acc f = acc := by
            rw [dedupStep, he]; exact if_neg hnlt
          rw [hkeep] at h
          have := congrArg List.length h
          simp at this

/-- The dedup loop is the identity on a pairwise non-duplicate list. -/
theorem deduplicate_facts_fixed :
    ∀ (l acc : List Fact), l.Pairwise (fun a b => factDup b a = false) →
      (∀ g ∈ l, ∀ e ∈ acc, factDup g e = false) →
      l.foldl dedupStep acc = acc ++ l := by
  intro l
  induction l with
  | nil => intro acc _ _; rw [List.foldl_nil, List.append_nil]
  | cons f t ih =>
      intro acc hpw hfr
      rw [List.foldl_cons]
      have hnone : acc.find? (factDup f) = none :=
        List.find?_eq_none.mpr (fun e he => by
          rw [hfr f (List.mem_cons_self f t) e he]; simp)
      have hstep : dedupStep acc f = acc ++ [f] := by
        rw [dedupStep, hnone]
      rw [hstep]
      rw [List.pairwise_cons] at hpw
      have := ih (acc ++ [f]) hpw.2 (fun g hg e he => by
        rcases List.mem_append.mp he with h' | h'
        · exact hfr g (List.mem_cons_of_mem f hg) e h'
        · rw [List.mem_singleton.mp h']
          exact hpw.1 g hg)
      rw [this, List.append_assoc, List.singleton_append]

/-- The loop of `_deduplicate_facts` is idempotent on lists of equal confidence. -/
theorem deduplicate_facts_idem (l : List Fact) (c : ℚ)
    (hc : ∀ f ∈ l, f.confidence = c) :
    deduplicate_facts (deduplicate_facts l) = deduplicate_facts l := by
  obtain ⟨hpw, _⟩ := deduplicate_facts_pairwise c l [] hc
    (fun a ha => absurd ha (List.not_mem_nil a)) List.Pairwise.nil
  have hfix := deduplicate_facts_fixed (l.foldl dedupStep []) [] hpw
    (fun g _ e he => absurd he (List.not_mem_nil e))
  rw [List.nil_append] at hfix
  exact hfix

/-- The duplicate test applied by `_deduplicate_contact_info` for the
given fact type (exact normalised match for emails, fuzzy for the rest). -/
def contactDup (fact_type : String) (fact existing : Fact) : Bool :=
  if fact_type = "email" then
    normVal fact.detail.value == normVal existing.detail.value
  else addressDup fact existing

theorem foldl_mem_of_step {step : List Fact → Fact → List Fact}
    (hstep : ∀ d f a, a ∈ step d f → a ∈ d ∨ a = f) :
    ∀ (l acc : List Fact) (a : Fact), a ∈ l.foldl step acc → a ∈ acc ∨ a ∈ l := by
  intro l
  induction l with
  | nil => exact fun acc a ha => Or.inl ha
  | cons f t ih =>
      intro acc a ha
      rw [List.foldl_cons] at ha
      rcases ih (step acc f) a ha with h | h
      · rcases hstep acc f a h with h' | h'
        · exact Or.inl h'
        · exact Or.inr (h' ▸ List.mem_cons_self f t)
      · exact Or.inr (List.mem_cons_of_mem f h)

theorem foldl_ne_nil_of_step {β γ : Type} {step : List β → γ → List β}
    (hne : ∀ d f, step d f ≠ []) :
    ∀ (l : List γ) (acc : List β), l ≠ [] ∨ acc ≠ [] → l.foldl step acc ≠ [] := by
  intro l
  induction l with
  | nil =>
      intro acc h
      rcases h with h | h
      · exact absurd rfl h
      · exact h
  | cons f t ih =>
      intro acc _
      rw [List.foldl_cons]
      by_cases ht : t = []
      · rw [ht, List.foldl_nil]
        exact hne acc f
      · exact ih (step acc f) (Or.inl ht)

theorem contactStep_ne_nil (t : String) (d : List Fact) (f : Fact) :
    contactStep t d f ≠ [] := by
  rw [contactStep]
  split_ifs with h1 h2 h3
  · rcases List.any_eq_true.mp h2 with ⟨e, he, _⟩
    exact List.ne_nil_of_mem he
  · simp
  · cases hf : d.find? (addressDup f) with
    | none => simp
    | some e =>
        show (if e.confidence < f.confidence then d.erase e ++ [f] else d) ≠ []
        split_ifs
        · simp
        · exact List.ne_nil_of_mem (List.mem_of_find?_eq_some hf)
  · simp

theorem mem_contactStep {t : String} {d : List Fact} {f a : Fact}
    (ha : a ∈ contactStep t d f) : a ∈ d ∨ a = f := by
  rw [contactStep] at ha
  split_ifs at ha with h1 h2 h3
  · exact Or.inl ha
  · rcases List.mem_append.mp ha with h | h
    · exact Or.inl h
    · exact Or.inr (List.mem_singleton.mp h)
  · cases hf : d.find? (addressDup f) with
    | none =>
        rw [hf] at ha
        rcases List.mem_append.mp ha with h | h
        · exact Or.inl h
        · exact Or.inr (List.mem_singleton.mp h)
    | some e =>
        rw [hf] at ha
        have ha' : a ∈ (if e.confidence < f.confidence
            then d.erase e ++ [f] else d) := ha
        split_ifs at ha'
        · rcases List.mem_append.mp ha' with h | h
          · exact Or.inl (List.erase_subset e d h)
          · exact Or.inr (List.mem_singleton.mp h)
        · exact Or.inl ha'
  · rcases List.mem_append.mp ha with h | h
    · exact Or.inl h
    · exact Or.inr (List.mem_singleton.mp h)

/-- When no duplicate is present the contact loop appends. -/
theorem contactStep_append (t : String) (d : List Fact) (f : Fact)
    (hfr : ∀ e ∈ d, contactDup t f e = false) :
    contactStep t d f = d ++ [f] := by
  rw [contactStep]
  split_ifs with h1 h2 h3
  · exfalso
    rcases List.any_eq_true.mp h2 with ⟨e, he, hbe⟩
    have := hfr e he
    rw [contactDup, if_pos h1] at this
    rw [this] at hbe
    exact Bool.false_ne_true hbe
  · rfl
  · have hnone : d.find? (addressDup f) = none :=
      List.find?_eq_none.mpr (fun e he => by
        have := hfr e he
        rw [contactDup, if_neg h1] at this
        rw [this]; simp)
    rw [hnone]
  · rfl

/-- Under equal confidences the contact loop either drops the incoming
fact (a duplicate exists) or appends it (no duplicate). -/
theorem contactStep_cases (t : String) (c : ℚ) (d : List Fact) (f : Fact)
    (hq : t = "email" ∨ t = "address")
    (hdc : ∀ a ∈ d, a.confidence = c) (hfc : f.confidence = c) :
    contactStep t d f = d ∨
    (contactStep t d f = d ++ [f] ∧ ∀ e ∈ d, contactDup t f e = false) := by
  rcases hq with ht | ht
  · subst ht
    by_cases hany : d.any
        (fun e => normVal f.detail.value == normVal e.detail.value) = true
    · exact Or.inl (by rw [contactStep, if_pos rfl, if_pos hany])
    · refine Or.inr ⟨by rw [contactStep, if_pos rfl, if_neg hany], ?_⟩
      intro e he
      rw [contactDup, if_pos rfl]
      rcases Bool.eq_false_or_eq_true
        (normVal f.detail.value == normVal e.detail.value) with h | h
      · exact absurd (List.any_eq_true.mpr ⟨e, he, h⟩) hany
      · exact h
  · subst ht
    cases hf : d.find? (addressDup f) with
    | none =>
        refine Or.inr ⟨?_, ?_⟩
        · rw [contactStep, if_neg (by decide), if_pos rfl, hf]
        · intro e he
          rw [contactDup, if_neg (by decide)]
          have := List.find?_eq_none.mp hf e he
          simpa using this
    | some e =>
        have hec : e.confidence = c := hdc e (List.mem_of_find?_eq_some hf)
        have hnlt : ¬ e.confidence < f.confidence := by
          rw [hec, hfc]; exact lt_irrefl c
        exact Or.inl (by
          rw [contactStep, if_neg (by decide), if_pos rfl, hf]
          exact if_neg hnlt)

theorem contact_pairwise (t : String) (c : ℚ) (hq : t = "email" ∨ t = "address") :
    ∀ (l acc : List Fact), (∀ f ∈ l, f.confidence = c) →
      (∀ a ∈ acc, a.confidence = c) →
      acc.Pairwise (fun a b => contactDup t b a = false) →
      ((l.foldl (contactStep t) acc).Pairwise (fun a b => contactDup t b a = false)) ∧
      (∀ a ∈ l.foldl (contactStep t) acc, a.confidence = c) := by
  intro l
  induction l with
  | nil => exact fun acc _ hacc hpw => ⟨hpw, hacc⟩
  | cons f tl ih =>
      intro acc hl hacc hpw
      rw [List.foldl_cons]
      have hfc : f.confidence = c := hl f (List.mem_cons_self f tl)
      have htl : ∀ g ∈ tl, g.confidence = c :=
        fun g hg => hl g (List.mem_cons_of_mem f hg)
      rcases contactStep_cases t c acc f hq hacc hfc with h | ⟨h, hfr⟩
      · rw [h]; exact ih acc htl hacc hpw
      · rw [h]
        refine ih (acc ++ [f]) htl ?_ ?_
        · intro a ha
          rcases List.mem_append.mp ha with h' | h'
          · exact hacc a h'
          · rw [List.mem_singleton.mp h']; exact hfc
        · rw [List.pairwise_append]
          refine ⟨hpw, List.pairwise_singleton _ _, ?_⟩
          intro a ha b hb
          rw [List.mem_singleton.mp hb]
          exact hfr a ha

theorem contact_fixed (t : String) :
    ∀ (l acc : List Fact), l.Pairwise (fun a b => contactDup t b a = false) →
      (∀ g ∈ l, ∀ e ∈ acc, contactDup t g e = false) →
      l.foldl (contactStep t) acc = acc ++ l := by
  intro l
  induction l with
  | nil => intro acc _ _; rw [List.foldl_nil, List.append_nil]
  | cons f tl ih =>
      intro acc hpw hfr
      rw [List.foldl_cons,
          contactStep_append t acc f (hfr f (List.mem_cons_self f tl))]
      rw [List.pairwise_cons] at hpw
      have := ih (acc ++ [f]) hpw.2 (fun g hg e he => by
        rcases List.mem_append.mp he with h' | h'
        · exact hfr g (List.mem_cons_of_mem f hg) e h'
        · rw [List.mem_singleton.mp h']
          exact hpw.1 g hg)
      rw [this, List.append_assoc, List.singleton_append]

/-- `_deduplicate_contact_info` is idempotent on lists of equal
confidence (for the email/address types it is invoked with). -/
theorem deduplicate_contact_info_idem (t : String) (l : List Fact) (c : ℚ)
    (hq : t = "email" ∨ t = "address") (hc : ∀ f ∈ l, f.confidence = c) :
    deduplicate_contact_info (deduplicate_contact_info l t) t =
      deduplicate_contact_info l t := by
  obtain ⟨hpw, _⟩ := contact_pairwise t c hq l [] hc
    (fun a ha => absurd ha (List.not_mem_nil a)) List.Pairwise.nil
  have hfix := contact_fixed t (l.foldl (contactStep t) []) [] hpw
    (fun g _ e he => absurd he (List.not_mem_nil e))
  rw [List.nil_append] at hfix
  exact hfix

theorem mem_insertByConfDesc {f a : Fact} :
    ∀ {s : List Fact}, a ∈ insertByConfDesc f s → a = f ∨ a ∈ s := by
  intro s
  induction s with
  | nil =>
      intro ha
      rw [insertByConfDesc] at ha
      exact Or.inl (List.mem_singleton.mp ha)
  | cons g tl ih =>
      intro ha
      rw [insertByConfDesc] at ha
      split_ifs at ha
      · rcases List.mem_cons.mp ha with h | h
        · exact Or.inl h
        · exact Or.inr h
      · rcases List.mem_cons.mp ha with h | h
        · exact Or.inr (h ▸ List.mem_cons_self g tl)
        · rcases ih h with h' | h'
          · exact Or.inl h'
          · exact Or.inr (List.mem_cons_of_mem g h')

theorem mem_sortByConfDesc {a : Fact} :
    ∀ {l : List Fact}, a ∈ sortByConfDesc l → a ∈ l := by
  intro l
  induction l with
  | nil => intro ha; exact absurd ha (List.not_mem_nil a)
  | cons f tl ih =>
      intro ha
      have ha' : a ∈ insertByConfDesc f (sortByConfDesc tl) := ha
      rcases mem_insertByConfDesc ha' with h | h
      · exact h ▸ List.mem_cons_self f tl
      · exact List.mem_cons_of_mem f (ih h)

theorem deduplicate_phone_numbers_subset {l : List Fact} {a : Fact}
    (ha : a ∈ deduplicate_phone_numbers l) : a ∈ l := by
  rw [deduplicate_phone_numbers] at ha
  cases hs : sortByConfDesc l with
  | nil => rw [hs] at ha; exact absurd ha (List.not_mem_nil a)
  | cons b s =>
      rw [hs] at ha
      rw [List.mem_singleton.mp ha]
      exact mem_sortByConfDesc (hs ▸ List.mem_cons_self b s)

theorem deduplicate_phone_numbers_ne_nil (l : List Fact) (hne : l ≠ []) :
    deduplicate_phone_numbers l ≠ [] := by
  rw [deduplicate_phone_numbers]
  cases hs : sortByConfDesc l with
  | nil =>
      exfalso
      cases l with
      | nil => exact absurd rfl hne
      | cons f tl =>
          have : insertByConfDesc f (sortByConfDesc tl) = [] := hs
          exact insertByConfDesc_ne_nil f (sortByConfDesc tl) this
  | cons b s => simp

/-- `_deduplicate_phone_numbers` is idempotent (it returns at most a
singleton, and the sort of a singleton is itself). -/
theorem deduplicate_phone_numbers_idem (l : List Fact) :
    deduplicate_phone_numbers (deduplicate_phone_numbers l) =
      deduplicate_phone_numbers l := by
  cases hs : sortByConfDesc l with
  | nil =>
      have h0 : deduplicate_phone_numbers l = [] := by
        rw [deduplicate_phone_numbers, hs]
      rw [h0]
      rfl
  | cons b s =>
      have h0 : deduplicate_phone_numbers l = [b] := by
        rw [deduplicate_phone_numbers, hs]
      rw [h0]
      rfl

theorem dedupForType_subset {t : String} {l : List Fact} {a : Fact}
    (ha : a ∈ dedupForType t l) : a ∈ l := by
  rw [dedupForType] at ha
  split_ifs at ha
  · exact deduplicate_phone_numbers_subset ha
  · rcases foldl_mem_of_step (fun d f a => mem_contactStep) l [] a ha with h | h
    · exact absurd h (List.not_mem_nil a)
    · exact h
  · rcases deduplicate_facts_subset l [] a ha with h | h
    · exact absurd h (List.not_mem_nil a)
    · exact h

theorem dedupForType_ne_nil (t : String) (l : List Fact) (hne : l ≠ []) :
    dedupForType t l ≠ [] := by
  rw [dedupForType]
  split_ifs
  · exact deduplicate_phone_numbers_ne_nil l hne
  · exact foldl_ne_nil_of_step (contactStep_ne_nil _) l [] (Or.inl hne)
  · exact deduplicate_facts_ne_nil l hne

/-- Every per-type Tier B rule is idempotent on equal-confidence lists. -/
theorem dedupForType_idem (t : String) (l : List Fact) (c : ℚ)
    (hc : ∀ f ∈ l, f.confidence = c) :
    dedupForType t (dedupForType t l) = dedupForType t l := by
  by_cases hp : t = "phone_number"
  · rw [dedupForType, if_pos hp, dedupForType, if_pos hp]
    exact deduplicate_phone_numbers_idem l
  · by_cases hcon : t = "address" ∨ t = "email"
    · rw [dedupForType, if_neg hp, if_pos hcon, dedupForType, if_neg hp, if_pos hcon]
      exact deduplicate_contact_info_idem t l c
        (by rcases hcon with h | h; exact Or.inr h; exact Or.inl h) hc
    · rw [dedupForType, if_neg hp, if_neg hcon, dedupForType, if_neg hp, if_neg hcon]
      exact deduplicate_facts_idem l c hc

/-! ## Grouping invariants, regrouping, and claim C3 -/

theorem map_id_of_eq {β : Type} (l : List β) (f : β → β) (h : ∀ x ∈ l, f x = x) :
    l.map f = l := by
  induction l with
  | nil => rfl
  | cons a t ih =>
      rw [List.map_cons, h a (List.mem_cons_self a t),
          ih (fun x hx => h x (List.mem_cons_of_mem a hx))]

theorem addToGroup_ne_nil (acc : List (String × List Fact)) (f : Fact) :
    addToGroup acc f ≠ [] := by
  rw [addToGroup]
  split_ifs with h
  · rcases List.any_eq_true.mp h with ⟨q, hq, _⟩
    intro hmap
    rw [List.map_eq_nil_iff] at hmap
    rw [hmap] at hq
    exact absurd hq (List.not_mem_nil q)
  · simp

theorem groupByType_ne_nil (l : List Fact) (hne : l ≠ []) :
    groupByType l ≠ [] := by
  rw [groupByType]
  exact foldl_ne_nil_of_step addToGroup_ne_nil l [] (Or.inl hne)

/-- Each group of `facts_by_type` is non-empty, type-pure, and drawn
from the input; the keys are distinct. -/
theorem groupByType_invariant (S : List Fact) :
    ∀ (l : List Fact), (∀ f ∈ l, f ∈ S) →
      ∀ acc : List (String × List Fact),
      (∀ p ∈ acc, p.2 ≠ [] ∧ (∀ f ∈ p.2, f.detail.type = p.1) ∧ (∀ f ∈ p.2, f ∈ S)) →
      ((acc.map Prod.fst).Nodup) →
      (∀ p ∈ l.foldl addToGroup acc,
        p.2 ≠ [] ∧ (∀ f ∈ p.2, f.detail.type = p.1) ∧ (∀ f ∈ p.2, f ∈ S)) ∧
      (((l.foldl addToGroup acc).map Prod.fst).Nodup) := by
  intro l
  induction l with
  | nil => exact fun _ acc h1 h2 => ⟨h1, h2⟩
  | cons f t ih =>
      intro hl acc h1 h2
      rw [List.foldl_cons]
      have hfS : f ∈ S := hl f (List.mem_cons_self f t)
      have htl : ∀ g ∈ t, g ∈ S := fun g hg => hl g (List.mem_cons_of_mem f hg)
      rw [addToGroup]
      split_ifs with hin
      · refine ih htl _ ?_ ?_
        · intro p hp
          rw [List.mem_map] at hp
          obtain ⟨q, hq, hpq⟩ := hp
          obtain ⟨hq1, hq2, hq3⟩ := h1 q hq
          by_cases hk : q.1 = f.detail.type
          · rw [if_pos hk] at hpq
            rw [← hpq]
            refine ⟨by simp, ?_, ?_⟩
            · intro g hg
              rcases List.mem_append.mp hg with h' | h'
              · exact hq2 g h'
              · rw [List.mem_singleton.mp h']
                exact hk.symm
            · intro g hg
              rcases List.mem_append.mp hg with h' | h'
              · exact hq3 g h'
              · rw [List.mem_singleton.mp h']
                exact hfS
          · rw [if_neg hk] at hpq
            rw [← hpq]
            exact h1 q hq
        · have hkeys : (acc.map
              (fun p => if p.1 = f.detail.type then (p.1, p.2 ++ [f]) else p)).map
              Prod.fst = acc.map Prod.fst := by
            rw [List.map_map]
            refine List.map_congr_left ?_
            intro q _
            by_cases hk : q.1 = f.detail.type
            · simp [hk]
            · simp [hk]
          rw [hkeys]
          exact h2
      · refine ih htl _ ?_ ?_
        · intro p hp
          rcases List.mem_append.mp hp with h' | h'
          · exact h1 p h'
          · rw [List.mem_singleton.mp h']
            exact ⟨by simp, by simp, by simpa using hfS⟩
        · rw [List.map_append]
          simp only [List.map_singleton]
          rw [List.nodup_append, List.disjoint_singleton]
          refine ⟨h2, List.nodup_singleton _, ?_⟩
          intro hmem
          rw [List.mem_map] at hmem
          obtain ⟨q, hq, hq1⟩ := hmem
          have hin' : ¬ (acc.any (fun p => p.1 == f.detail.type) = true) := hin
          exact hin' (List.any_eq_true.mpr ⟨q, hq, by simp [hq1]⟩)

theorem foldl_append_eq {β γ : Type} (g : γ → List β) :
    ∀ (l : List γ) (init : List β),
      l.foldl (fun d p => d ++ g p) init = init ++ (l.map g).flatten := by
  intro l
  induction l with
  | nil => intro init; rw [List.foldl_nil, List.map_nil, List.flatten_nil,
      List.append_nil]
  | cons a t ih =>
      intro init
      rw [List.foldl_cons, ih (init ++ g a), List.map_cons, List.flatten_cons,
          List.append_assoc]

/-- Tier B as concatenation of the per-type rules over the groups. -/
theorem deduplicate_facts_enhanced_eq (l : List Fact) (hne : l ≠ []) :
    deduplicate_facts_enhanced l =
      ((groupByType l).map (fun p => dedupForType p.1 p.2)).flatten := by
  rw [deduplicate_facts_enhanced, if_neg (by simpa [List.isEmpty_iff] using hne)]
  rw [foldl_append_eq (fun p => dedupForType p.1 p.2) (groupByType l) []]
  rw [List.nil_append]

theorem foldl_addToGroup_last (t : String) :
    ∀ (l : List Fact), (∀ f ∈ l, f.detail.type = t) →
      ∀ (acc : List (String × List Fact)) (g : List Fact),
        (∀ q ∈ acc, q.1 ≠ t) →
        l.foldl addToGroup (acc ++ [(t, g)]) = acc ++ [(t, g ++ l)] := by
  intro l
  induction l with
  | nil => intro _ acc g _; rw [List.foldl_nil, List.append_nil]
  | cons f r ih =>
      intro hall acc g hfr
      have hft : f.detail.type = t := hall f (List.mem_cons_self f r)
      rw [List.foldl_cons]
      have hstep : addToGroup (acc ++ [(t, g)]) f = acc ++ [(t, g ++ [f])] := by
        rw [addToGroup, if_pos (List.any_eq_true.mpr
          ⟨(t, g), List.mem_append.mpr (Or.inr (List.mem_singleton_self _)),
           by simp [hft]⟩)]
        rw [List.map_append]
        rw [map_id_of_eq acc _ (fun q hq => if_neg (by rw [hft]; exact hfr q hq))]
        rw [List.map_singleton, if_pos hft.symm]
      rw [hstep, ih (fun x hx => hall x (List.mem_cons_of_mem f hx)) acc (g ++ [f]) hfr]
      rw [List.append_assoc, List.singleton_append]

theorem foldl_addToGroup_fresh (t : String) (l : List Fact) (hne : l ≠ [])
    (hall : ∀ f ∈ l, f.detail.type = t) (acc : List (String × List Fact))
    (hfr : ∀ q ∈ acc, q.1 ≠ t) :
    l.foldl addToGroup acc = acc ++ [(t, l)] := by
  cases l with
  | nil => exact absurd rfl hne
  | cons f r =>
      have hft : f.detail.type = t := hall f (List.mem_cons_self f r)
      rw [List.foldl_cons]
      have hany : ¬ (acc.any (fun p => p.1 == f.detail.type) = true) := by
        intro hcontra
        rcases List.any_eq_true.mp hcontra with ⟨q, hq, hbq⟩
        exact hfr q hq (by rw [← hft]; simpa using hbq)
      have hstep : addToGroup acc f = acc ++ [(t, [f])] := by
        rw [addToGroup, if_neg hany, hft]
      rw [hstep, foldl_addToGroup_last t r
        (fun x hx => hall x (List.mem_cons_of_mem f hx)) acc [f] hfr]
      rw [List.singleton_append]

/-- Regrouping a concatenation of non-empty type-pure blocks with
distinct keys recovers exactly those blocks. -/
theorem groupByType_blocks :
    ∀ (blocks acc : List (String × List Fact)),
      (∀ p ∈ blocks, p.2 ≠ [] ∧ ∀ f ∈ p.2, f.detail.type = p.1) →
      (∀ p ∈ blocks, ∀ q ∈ acc, q.1 ≠ p.1) →
      ((blocks.map Prod.fst).Nodup) →
      ((blocks.map Prod.snd).flatten).foldl addToGroup acc = acc ++ blocks := by
  intro blocks
  induction blocks with
  | nil =>
      intro acc _ _ _
      rw [List.map_nil, List.flatten_nil, List.foldl_nil, List.append_nil]
  | cons b rest ih =>
      intro acc hprops hfr hnd
      rw [List.map_cons, List.flatten_cons, List.foldl_append]
      obtain ⟨hbne, hbpure⟩ := hprops b (List.mem_cons_self b rest)
      have h1 : b.2.foldl addToGroup acc = acc ++ [(b.1, b.2)] :=
        foldl_addToGroup_fresh b.1 b.2 hbne hbpure acc
          (fun q hq => hfr b (List.mem_cons_self b rest) q hq)
      rw [h1]
      have h2 := ih (acc ++ [(b.1, b.2)])
        (fun p hp => hprops p (List.mem_cons_of_mem b hp))
        (fun p hp q hq => by
          rcases List.mem_append.mp hq with h' | h'
          · exact hfr p (List.mem_cons_of_mem b hp) q h'
          · rw [List.mem_singleton.mp h']
            rw [List.map_cons, List.nodup_cons] at hnd
            intro heq
            exact hnd.1 (heq ▸ List.mem_map.mpr ⟨p, hp, rfl⟩))
        (by rw [List.map_cons, List.nodup_cons] at hnd; exact hnd.2)
      rw [h2, List.append_assoc, List.singleton_append]

/-- Claim C3 (amended): Tier B deduplication is idempotent on any
per-layer candidate list whose candidates all share one confidence value
(then the higher-confidence replacement can never fire). -/
theorem tierB_idempotent_of_equal_confidence (l : List Fact) (c : ℚ)
    (hc : ∀ f ∈ l, f.confidence = c) :
    deduplicate_facts_enhanced (deduplicate_facts_enhanced l) =
      deduplicate_facts_enhanced l := by
  by_cases hne : l = []
  · subst hne; rfl
  · obtain ⟨hprops, hnd⟩ := groupByType_invariant l l (fun f hf => hf) []
      (fun p hp => absurd hp (List.not_mem_nil p)) List.nodup_nil
    have hY := deduplicate_facts_enhanced_eq l hne
    -- the deduplicated blocks
    have hblocksProps : ∀ p ∈ (groupByType l).map
        (fun q => (q.1, dedupForType q.1 q.2)),
        p.2 ≠ [] ∧ ∀ f ∈ p.2, f.detail.type = p.1 := by
      intro p hp
      rw [List.mem_map] at hp
      obtain ⟨q, hq, hpq⟩ := hp
      obtain ⟨hq1, hq2, _⟩ := hprops q hq
      rw [← hpq]
      exact ⟨dedupForType_ne_nil q.1 q.2 hq1,
             fun f hf => hq2 f (dedupForType_subset hf)⟩
    have hkeys : (((groupByType l).map
        (fun q => (q.1, dedupForType q.1 q.2))).map Prod.fst).Nodup := by
      rw [List.map_map]
      exact hnd
    have hflat : (((groupByType l).map
        (fun q => (q.1, dedupForType q.1 q.2))).map Prod.snd).flatten =
        ((groupByType l).map (fun p => dedupForType p.1 p.2)).flatten := by
      rw [List.map_map]
      rfl
    have hYne : ((groupByType l).map (fun p => dedupForType p.1 p.2)).flatten ≠ [] := by
      cases hGc : groupByType l with
      | nil => exact absurd hGc (groupByType_ne_nil l hne)
      | cons q rest =>
          rw [List.map_cons, List.flatten_cons]
          have hqmem : q ∈ groupByType l := by
            rw [hGc]; exact List.mem_cons_self q rest
          have hqne := dedupForType_ne_nil q.1 q.2 (hprops q hqmem).1
          intro hnil
          rcases List.append_eq_nil.mp hnil with ⟨h1, _⟩
          exact hqne h1
    rw [hY]
    rw [deduplicate_facts_enhanced,
        if_neg (by simpa [List.isEmpty_iff] using hYne)]
    have hregroup : groupByType
        (((groupByType l).map (fun p => dedupForType p.1 p.2)).flatten) =
        (groupByType l).map (fun q => (q.1, dedupForType q.1 q.2)) := by
      rw [groupByType, ← hflat]
      rw [groupByType_blocks _ [] hblocksProps
        (fun p _ q hq => absurd hq (List.not_mem_nil q)) hkeys]
      rw [List.nil_append]
    rw [hregroup]
    have hfold : List.foldl (fun deduped p => deduped ++ dedupForType p.1 p.2) []
        ((groupByType l).map (fun q => (q.1, dedupForType q.1 q.2))) =
        (((groupByType l).map (fun q => (q.1, dedupForType q.1 q.2))).map
          (fun p => dedupForType p.1 p.2)).flatten := by
      have hgen := foldl_append_eq (fun p : String × List Fact => dedupForType p.1 p.2)
        ((groupByType l).map (fun q => (q.1, dedupForType q.1 q.2))) []
      rw [List.nil_append] at hgen
      exact hgen
    rw [hfold, List.map_map]
    congr 1
    refine List.map_congr_left ?_
    intro q hq
    show dedupForType q.1 (dedupForType q.1 q.2) = dedupForType q.1 q.2
    exact dedupForType_idem q.1 q.2 c
      (fun f hf => hc f ((hprops q hq).2.2 f hf))

/-- The counterexample candidates for C3: three `name` facts where the
middle value fuzzily matches both ends but the ends do not match each
other, with a higher-confidence third candidate. -/
def nameShort1 : Fact :=
  { detail := { type := "name", value := "abcdefgh" }
    confidence := ratLit 4 5 (by decide) (by decide), evidence := [] }

def nameShort2 : Fact :=
  { detail := { type := "name", value := "cdefghij" }
    confidence := ratLit 4 5 (by decide) (by decide), evidence := [] }

def nameLong : Fact :=
  { detail := { type := "name", value := "abcdefghij" }
    confidence := ratLit 9 10 (by decide) (by decide), evidence := [] }

set_option maxRecDepth 10000 in
/-- Claim C3 counterexample: Tier B deduplication is *not* idempotent.
On `[nameShort1, nameShort2, nameLong]` the higher-confidence `nameLong`
replaces `nameShort1` and is appended at the end, next to `nameShort2`
which it also fuzzily matches; a second pass then removes `nameShort2`. -/
theorem tierB_not_idempotent :
    deduplicate_facts_enhanced
        (deduplicate_facts_enhanced [nameShort1, nameShort2, nameLong]) ≠
      deduplicate_facts_enhanced [nameShort1, nameShort2, nameLong] := by
  decide

/-- Witness for the amended C3 at a concrete equal-confidence input. -/
theorem tierB_idempotent_of_equal_confidence_witness :
    deduplicate_facts_enhanced (deduplicate_facts_enhanced [nameShort1, nameShort2]) =
      deduplicate_facts_enhanced [nameShort1, nameShort2] :=
  tierB_idempotent_of_equal_confidence [nameShort1, nameShort2]
    (ratLit 4 5 (by decide) (by decide)) (by decide)

/-! ## Merger lemmas and claim C1 -/

theorem getLayer_mapKeys (w : String → List Fact) :
    ∀ (keys : List String), ∀ layer ∈ keys,
      getLayer (keys.map (fun L => (L, w L))) layer = w layer := by
  intro keys
  induction keys with
  | nil => intro layer h; exact absurd h (List.not_mem_nil layer)
  | cons k rest ih =>
      intro layer hmem
      rw [List.map_cons, getLayer]
      by_cases hk : k = layer
      · rw [List.find?_cons_of_pos _ (by simpa using hk)]
        rw [← hk]
        rfl
      · rw [List.find?_cons_of_neg _ (by simpa using hk)]
        have hrest : layer ∈ rest := by
          rcases List.mem_cons.mp hmem with h | h
          · exact absurd h.symm hk
          · exact h
        exact ih layer hrest

/-- A duplicated candidate across two chunks. -/
def aliceNode : Fact :=
  { detail := { type := "name", value := "Alice" }
    confidence := ratLit 9 10 (by decide) (by decide)
    evidence := [{ message_id := some "m7"
                   message_snippet := some "my name is alice", snippet := none }] }

set_option maxRecDepth 10000 in
/-- Claim C1 counterexample: the Merger does *not* return the plain
concatenation — the same candidate extracted from two chunks is
deduplicated down to one copy (`_deduplicate_facts` runs inside
`merge_extracted_data`), so a candidate is dropped. -/
theorem merger_drops_duplicate :
    merge_extracted_data [[("Layer1", [aliceNode])], [("Layer1", [aliceNode])]] =
      [("Layer1", [aliceNode]), ("Layer2", []), ("Layer3", []), ("Layer4", [])] ∧
    [aliceNode, aliceNode].length = 2 := by
  constructor
  · decide
  · rfl

/-- Claim C1 (amended): for each of the four layer keys the Merger
returns `_deduplicate_facts` applied to the concatenation of that
layer's candidate lists in chunk-processing order (then within-chunk
order) — concatenation followed by fuzzy same-type deduplication, not
pure accumulation. -/
theorem merger_concat_then_dedup (all_extracted : List LayerDict)
    (layer : String) (hmem : layer ∈ layerKeys) :
    getLayer (merge_extracted_data all_extracted) layer =
      deduplicate_facts
        (all_extracted.foldl (fun acc d => acc ++ getLayer d layer) []) := by
  have h := getLayer_mapKeys
    (fun L => deduplicate_facts
      (all_extracted.foldl (fun acc d => acc ++ getLayer d L) []))
    layerKeys layer hmem
  rw [merge_extracted_data, List.map_map]
  exact h

/-- Witness for the amended C1 at a concrete input. -/
theorem merger_concat_then_dedup_witness :
    getLayer (merge_extracted_data
        [[("Layer1", [aliceNode])], [("Layer1", [aliceNode])]]) "Layer1" =
      deduplicate_facts
        ([[("Layer1", [aliceNode])], [("Layer1", [aliceNode])]].foldl
          (fun acc d => acc ++ getLayer d "Layer1") []) :=
  merger_concat_then_dedup [[("Layer1", [aliceNode])], [("Layer1", [aliceNode])]]
    "Layer1" (by decide)

/-! ## Persistence Adapter lemmas and claims C6, C10 -/

/-- The predicate a node must satisfy to be written on the normal path:
confidence at least the threshold and a successful insert. -/
def storeKeep (storeO : Fact → Bool) (n : Fact) : Bool :=
  !decide (n.confidence < CONFIDENCE_THRESHOLD) && storeO n

theorem storeNode_fold (storeO : Fact → Bool) (nodes : List Fact) :
    ∀ st : List Fact × StoreStats,
      (nodes.foldl (storeNode storeO) st).1 =
        st.1 ++ nodes.filter (storeKeep storeO) := by
  induction nodes with
  | nil => intro st; rw [List.foldl_nil, List.filter_nil, List.append_nil]
  | cons n t ih =>
      intro st
      rw [List.foldl_cons, List.filter_cons]
      by_cases hconf : n.confidence < CONFIDENCE_THRESHOLD
      · have hkeep : storeKeep storeO n = false := by
          rw [storeKeep, decide_eq_true hconf]
          rfl
        rw [hkeep, if_neg (by simp)]
        have hstep : storeNode storeO st n =
            (st.1, { st.2 with low_confidence_rejected :=
              st.2.low_confidence_rejected + 1 }) := by
          rw [storeNode, if_pos hconf]
        rw [hstep, ih]
      · by_cases hso : storeO n = true
        · have hkeep : storeKeep storeO n = true := by
            rw [storeKeep, decide_eq_false hconf, hso]
            rfl
          rw [hkeep, if_pos rfl]
          have hstep : storeNode storeO st n =
              (st.1 ++ [n], { st.2 with stored := st.2.stored + 1 }) := by
            rw [storeNode, if_neg hconf, if_pos hso]
          rw [hstep, ih]
          rw [List.append_assoc, List.singleton_append]
        · have hkeep : storeKeep storeO n = false := by
            rw [storeKeep, decide_eq_false hconf,
                Bool.eq_false_iff.mpr hso]
            rfl
          rw [hkeep, if_neg (by simp)]
          have hstep : storeNode storeO st n =
              (st.1, { st.2 with duplicate := st.2.duplicate + 1 }) := by
            rw [storeNode, if_neg hconf, if_neg hso]
          rw [hstep, ih]

theorem store_outer_fold (storeO : Fact → Bool) (ext : LayerDict) :
    ∀ acc : LayerDict × StoreStats,
      (ext.foldl
        (fun acc p =>
          let st := p.2.foldl (storeNode storeO) ([], acc.2)
          (acc.1 ++ [(p.1, st.1)], st.2)) acc).1 =
      acc.1 ++ ext.map (fun p => (p.1, p.2.filter (storeKeep storeO))) := by
  induction ext with
  | nil => intro acc; rw [List.foldl_nil, List.map_nil, List.append_nil]
  | cons p t ih =>
      intro acc
      rw [List.foldl_cons, List.map_cons]
      show (t.foldl _ (acc.1 ++ [(p.1, (p.2.foldl (storeNode storeO) ([], acc.2)).1)],
        (p.2.foldl (storeNode storeO) ([], acc.2)).2)).1 = _
      rw [ih]
      rw [storeNode_fold storeO p.2 ([], acc.2), List.nil_append]
      rw [List.append_assoc, List.singleton_append]

/-- On the normal path `store_in_db` writes exactly the candidates that
reach the threshold and whose insert succeeds, layer by layer. -/
theorem store_in_db_normal_newly (storeO : Fact → Bool) (ext : LayerDict) :
    (store_in_db true false storeO ext).newly_stored_nodes =
      filterNonempty (ext.map (fun p => (p.1, p.2.filter (storeKeep storeO)))) := by
  rw [store_in_db]
  rw [if_neg (by simp), if_neg (by simp)]
  have h := store_outer_fold storeO ext ([], StoreStats.mk 0 0 0)
  rw [List.nil_append] at h
  show filterNonempty (ext.foldl _ ([], StoreStats.mk 0 0 0)).1 = _
  rw [h]

/-- A candidate with a single evidence entry and confidence `0.9`. -/
def evidencedNode : Fact :=
  { detail := { type := "email", value := "a@b.com" }
    confidence := ratLit 9 10 (by decide) (by decide)
    evidence := [{ message_id := some "m9"
                   message_snippet := some "my email is a@b.com", snippet := none }] }

/-- Claim C6 (amended): the Persistence Adapter performs no evidence
check of its own — it writes input candidates unchanged (only the 0.75
confidence threshold and the insert outcome filter them) — so every
written FactRecord has at least one evidence entry *provided* every
candidate handed to it has one. -/
theorem store_preserves_evidence (storeO : Fact → Bool) (ext : LayerDict)
    (hev : ∀ p ∈ ext, ∀ n ∈ p.2, n.evidence ≠ []) :
    ∀ q ∈ (store_in_db true false storeO ext).newly_stored_nodes,
      ∀ n ∈ q.2, n.evidence ≠ [] ∧ 3 / 4 ≤ n.confidence := by
  intro q hq n hn
  rw [store_in_db_normal_newly] at hq
  rw [filterNonempty] at hq
  have hq' := List.mem_of_mem_filter hq
  rw [List.mem_map] at hq'
  obtain ⟨p, hp, hpq⟩ := hq'
  rw [← hpq] at hn
  have hn' := List.mem_filter.mp hn
  have hkeep := hn'.2
  rw [storeKeep, Bool.and_eq_true, Bool.not_eq_true', decide_eq_false_iff_not] at hkeep
  refine ⟨hev p hp n hn'.1, ?_⟩
  rw [← CONFIDENCE_THRESHOLD_eq]
  exact not_lt.mp hkeep.1

/-- Witness for the amended C6 at a concrete run. -/
theorem store_preserves_evidence_witness :
    evidencedNode.evidence ≠ [] ∧ 3 / 4 ≤ evidencedNode.confidence :=
  store_preserves_evidence (fun _ => true) [("Layer1", [evidencedNode])]
    (by decide) ("Layer1", [evidencedNode]) (by decide) evidencedNode (by decide)

/-- A candidate carrying an *empty* evidence list. -/
def noEvidenceNode : Fact :=
  { detail := { type := "phone_number", value := "9876543210" }
    confidence := ratLit 9 10 (by decide) (by decide)
    evidence := [] }

/-- The Tier A response echoing that candidate with `evidence: []`
(present and a list, so the placeholder repair does not trigger). -/
def emptyEvidenceResp : LLMDict :=
  [("Layer1", [{ type := some "phone_number", value := some "9876543210"
                 confidence := some (ratLit 9 10 (by decide) (by decide))
                 evidence := some [] }])]

set_option maxRecDepth 10000 in
/-- Claim C6 counterexample: a candidate whose evidence list is empty
passes Tier A reconstruction unrepaired (the placeholder is only for a
missing or non-list `evidence` key) and `store_in_db` writes it — the
stats report one stored node and the written record has zero evidence
entries. -/
theorem store_persists_empty_evidence :
    store_in_db true false (fun _ => true)
        (deduplicate_with_llm (fun _ => emptyEvidenceResp)
          [("Layer1", [noEvidenceNode])]) =
      { newly_stored_nodes := [("Layer1", [noEvidenceNode])]
        stats := { stored := 1, duplicate := 0, low_confidence_rejected := 0 } } ∧
    noEvidenceNode.evidence = [] := by
  constructor
  · decide
  · rfl

/-- Claim C10: with the Fact Store disconnected (`db_enabled = false`)
or a database exception during storage, `store_in_db` returns every
input candidate of every non-empty layer as `newly_stored_nodes` while
reporting a stored count of 0. -/
theorem store_unavailable_returns_all (db_error : Bool) (storeO : Fact → Bool)
    (ext : LayerDict) :
    (store_in_db false db_error storeO ext).newly_stored_nodes = filterNonempty ext ∧
    (store_in_db false db_error storeO ext).stats.stored = 0 ∧
    (store_in_db true true storeO ext).newly_stored_nodes = filterNonempty ext ∧
    (store_in_db true true storeO ext).stats.stored = 0 ∧
    (∀ p ∈ ext, ∀ n ∈ p.2, ∃ q ∈ filterNonempty ext, q.1 = p.1 ∧ n ∈ q.2) := by
  refine ⟨by rw [store_in_db, if_pos (by simp)], by rw [store_in_db, if_pos (by simp)],
          by rw [store_in_db, if_neg (by simp), if_pos rfl],
          by rw [store_in_db, if_neg (by simp), if_pos rfl], ?_⟩
  intro p hp n hn
  refine ⟨p, ?_, rfl, hn⟩
  rw [filterNonempty, List.mem_filter]
  refine ⟨hp, ?_⟩
  simp [List.isEmpty_iff]
  exact List.ne_nil_of_mem hn

/-- Witness for C10 at a concrete input. -/
theorem store_unavailable_returns_all_witness :
    (store_in_db false false (fun _ => true)
        [("Layer1", [noEvidenceNode]), ("Layer2", [])]).newly_stored_nodes =
      filterNonempty [("Layer1", [noEvidenceNode]), ("Layer2", [])] ∧
    (store_in_db false false (fun _ => true)
        [("Layer1", [noEvidenceNode]), ("Layer2", [])]).stats.stored = 0 ∧
    (store_in_db true true (fun _ => true)
        [("Layer1", [noEvidenceNode]), ("Layer2", [])]).newly_stored_nodes =
      filterNonempty [("Layer1", [noEvidenceNode]), ("Layer2", [])] ∧
    (store_in_db true true (fun _ => true)
        [("Layer1", [noEvidenceNode]), ("Layer2", [])]).stats.stored = 0 ∧
    (∀ p ∈ [("Layer1", [noEvidenceNode]), ("Layer2", ([] : List Fact))], ∀ n ∈ p.2,
      ∃ q ∈ filterNonempty [("Layer1", [noEvidenceNode]), ("Layer2", [])],
        q.1 = p.1 ∧ n ∈ q.2) :=
  store_unavailable_returns_all false (fun _ => true)
    [("Layer1", [noEvidenceNode]), ("Layer2", [])]

/-! ## Pipeline claims: C5 -/

/-- Model `process_json` with its `let` bindings expanded (definitional). -/
theorem process_json_eq (env : Env) (cs os : ℕ) (input : List Conv)
    (m force : Bool) :
    process_json env cs os input m force =
      if ¬ force ∧ env.db_enabled ∧ m then
        .ok { ret := .alreadyProcessed, marker := m, extraction_calls := 0 }
      else
        match chunk_messages (flattenInput input) cs os with
        | .error e => .error e
        | .ok chunks =>
            if (((chunks.map (call_llm_for_extraction env.extractO)).filter
                  (fun d => ¬ d.isEmpty)).isEmpty) then
              .ok { ret := .facts [], marker := m, extraction_calls := chunks.length }
            else
              .ok { ret := .facts (store_in_db env.db_enabled env.db_error env.storeO
                      (deduplicate_with_llm env.dedupO (merge_extracted_data
                        ((chunks.map (call_llm_for_extraction env.extractO)).filter
                          (fun d => ¬ d.isEmpty))))).newly_stored_nodes
                    marker := if env.db_enabled then true else m
                    extraction_calls := chunks.length } := rfl

/-- Claim C5: with the Fact Store connected, (i) a present
already-processed marker and no force flag make `process_json` return
the skip value — no extraction calls, no facts, marker untouched; and
(ii) whatever the initial marker state, a second run on identical input
(same oracles) returns an empty newly-stored fact set. -/
theorem process_json_skip_idempotent (env : Env) (cs os : ℕ)
    (input : List Conv) (m0 : Bool) (hdb : env.db_enabled = true) :
    (m0 = true → process_json env cs os input m0 false =
      .ok { ret := .alreadyProcessed, marker := m0, extraction_calls := 0 }) ∧
    (∀ out1, process_json env cs os input m0 false = .ok out1 →
      ∀ out2, process_json env cs os input out1.marker false = .ok out2 →
        out2.ret.factsOf = []) := by
  have hskip : ∀ m : Bool, m = true →
      process_json env cs os input m false =
        .ok { ret := .alreadyProcessed, marker := m, extraction_calls := 0 } := by
    intro m hm
    subst hm
    rw [process_json_eq, if_pos ⟨by simp, hdb, rfl⟩]
  have hrun : ∀ out, process_json env cs os input false false = .ok out →
      (out.ret = .facts [] ∧ out.marker = false) ∨ out.marker = true := by
    intro out h
    rw [process_json_eq, if_neg (by simp)] at h
    split at h
    · simp at h
    · split at h
      · left
        simp only [Except.ok.injEq] at h
        rw [← h]
        exact ⟨rfl, rfl⟩
      · right
        simp only [Except.ok.injEq] at h
        rw [← h, hdb]
  refine ⟨hskip m0, ?_⟩
  intro out1 h1 out2 h2
  by_cases hm : m0 = true
  · rw [hskip m0 hm] at h1
    simp only [Except.ok.injEq] at h1
    rw [← h1] at h2
    have h2' : process_json env cs os input m0 false = .ok out2 := h2
    rw [hskip m0 hm] at h2'
    simp only [Except.ok.injEq] at h2'
    rw [← h2']
    rfl
  · have hm0 : m0 = false := by
      cases m0
      · rfl
      · exact absurd rfl hm
    subst hm0
    have h1c := h1
    rcases hrun out1 h1 with ⟨hret, hmark⟩ | hmark
    · rw [hmark] at h2
      rw [h1c] at h2
      simp only [Except.ok.injEq] at h2
      rw [← h2, hret]
      rfl
    · rw [hmark] at h2
      rw [hskip true rfl] at h2
      simp only [Except.ok.injEq] at h2
      rw [← h2]
      rfl

/-- A concrete environment with a connected store. -/
def envConnected : Env :=
  { db_enabled := true, db_error := false
    extractO := fun _ => none, dedupO := fun _ => [], storeO := fun _ => true }

/-- Witness for C5: with the marker present the pipeline returns the
skip value — zero extraction calls and no facts. -/
theorem process_json_skip_idempotent_witness :
    process_json envConnected 100 20 [] true false =
      .ok { ret := .alreadyProcessed, marker := true, extraction_calls := 0 } :=
  (process_json_skip_idempotent envConnected 100 20 [] true rfl).1 rfl

end FaffUserManagement
